import Mathlib

/-!
# Verification of the sConf configuration library core

Shallow embedding of the sConf C++ library (`sconf_parser.cpp`,
`sconf_value.cpp`, `sconf_value.hpp`): an INI-like configuration format with
sections, typed values, arrays and per-section comments.

Strings are modelled as `List Char` (mirroring `std::string` as a character
sequence).  The `unordered_map` stores (`data`, `comments`) are modelled as
insertion-ordered association lists with unique keys; claims about the maps
are stated via lookup, never via iteration order.  Exceptions are modelled
with `Except` over an error-kind type whose constructors correspond to the
distinct `SconfException` message families thrown by the source.
-/

namespace SConf

/-- A character string, as the C++ code sees it: a sequence of chars. -/
abbrev Str := List Char

/-- `std::isspace` for the default locale. -/
def isWs (c : Char) : Bool :=
  c = ' ' || c = '\t' || c = '\n' || c = '\x0b' || c = '\x0c' || c = '\r'

/-- Drop trailing characters satisfying `p` (helper for `trim`). -/
def dropWhileEnd (p : Char → Bool) (s : Str) : Str :=
  (s.reverse.dropWhile p).reverse

/-- `sConfParser::trim`: remove leading and trailing whitespace.  The C++
code takes the range from the first to the last non-space character (empty
if none). -/
def trim (s : Str) : Str :=
  dropWhileEnd isWs (s.dropWhile isWs)

/-- `sConfParser::trimQuotes`: if the string has length at least 2 and both
the first and last character are `"`, strip exactly one from each end. -/
def trimQuotes (s : Str) : Str :=
  if 2 ≤ s.length ∧ s.head? = some '"' ∧ s.getLast? = some '"' then
    (s.drop 1).dropLast
  else s

/-- `sConfParser::isArray`: non-empty, first char `[`, last char `]`. -/
def isArray (s : Str) : Bool :=
  !s.isEmpty && s.head? == some '[' && s.getLast? == some ']'

/-- The token split performed by `std::getline(stream, item, ',')` in a
loop: read chunks up to each `,` (the delimiter is consumed); at
end-of-input the loop stops, so an input ending in `,` yields no empty
final token and an empty input yields no tokens at all. -/
def getlineSplit : Str → List Str
  | [] => []
  | ',' :: rest => [] :: getlineSplit rest
  | c :: rest =>
    match getlineSplit rest with
    | [] => [[c]]
    | t :: ts => (c :: t) :: ts

lemma length_dropWhile_le (p : Char → Bool) (s : Str) :
    (s.dropWhile p).length ≤ s.length := by
  induction s with
  | nil => simp
  | cons c rest ih =>
    rw [List.dropWhile_cons]
    split
    · exact Nat.le_trans ih (Nat.le_succ _)
    · simp

lemma length_trim_le (s : Str) : (trim s).length ≤ s.length := by
  unfold trim dropWhileEnd
  have h1 : (s.dropWhile isWs).length ≤ s.length := length_dropWhile_le _ _
  have h2 : ((s.dropWhile isWs).reverse.dropWhile isWs).length
      ≤ (s.dropWhile isWs).reverse.length := length_dropWhile_le _ _
  simp only [List.length_reverse] at *
  omega

lemma length_trimQuotes_le (s : Str) : (trimQuotes s).length ≤ s.length := by
  unfold trimQuotes
  split
  · simp only [List.length_dropLast, List.length_drop]
    omega
  · exact le_refl _

lemma length_mem_getlineSplit_le :
    ∀ {s t : Str}, t ∈ getlineSplit s → t.length ≤ s.length := by
  intro s
  induction s with
  | nil => intro t ht; simp [getlineSplit] at ht
  | cons c rest ih =>
    intro t ht
    by_cases hc : c = ','
    · subst hc
      rw [getlineSplit] at ht
      rcases List.mem_cons.mp ht with h | h
      · simp [h]
      · exact Nat.le_trans (ih h) (Nat.le_succ _)
    · rw [show getlineSplit (c :: rest) = match getlineSplit rest with
          | [] => [[c]]
          | t :: ts => (c :: t) :: ts by
        cases c with
        | mk v h =>
          rw [getlineSplit.eq_def]
          split
          · rename_i heq; cases heq
          · rename_i heq
            exfalso; apply hc; cases heq; rfl
          · rename_i heq
            cases heq; rfl] at ht
      rcases hgs : getlineSplit rest with _ | ⟨t0, ts⟩
      · rw [hgs] at ht
        simp only [List.mem_singleton] at ht
        subst ht; simp [getlineSplit]
      · rw [hgs] at ht
        rcases List.mem_cons.mp ht with h | h
        · subst h
          have : t0 ∈ getlineSplit rest := by rw [hgs]; exact List.mem_cons_self _ _
          have := ih this
          simp only [List.length_cons]
          omega
        · have : t ∈ getlineSplit rest := by rw [hgs]; exact List.mem_cons_of_mem _ h
          exact Nat.le_trans (ih this) (Nat.le_succ _)

/-- `sConfValue`: the tagged value variant.  The double and date variants
carry the canonical stored text (`stringValue` in the C++ class), since no
claim inspects their numeric content; the integer variant carries the
mathematical integer, whose decimal rendering is `std::to_string`. -/
inductive Val where
  | str : Str → Val
  | intg : Int → Val
  | dbl : Str → Val
  | boolean : Bool → Val
  | date : Str → Val
  | arr : List Val → Val

/-- `sConfValue::isArray`. -/
def Val.isArr : Val → Bool
  | .arr _ => true
  | _ => false

/-- `sConfParser::parseArray`: strip the outer brackets, split the interior
on every `,`, trim and de-quote each piece, recursively parse pieces that
again look like arrays, and wrap everything else as a string value. -/
def parseArray (s : Str) : List Val :=
  (getlineSplit ((s.drop 1).dropLast)).attach.map fun item =>
    if isArray (trimQuotes (trim item.1)) then
      Val.arr (parseArray (trimQuotes (trim item.1)))
    else Val.str (trimQuotes (trim item.1))
termination_by s.length
decreasing_by
  have h1 : item.1.length ≤ ((s.drop 1).dropLast).length :=
    length_mem_getlineSplit_le item.2
  have h2 : ((s.drop 1).dropLast).length ≤ s.length - 1 := by
    simp only [List.length_dropLast, List.length_drop]
    omega
  have h3 : (trim item.1).length ≤ item.1.length := length_trim_le _
  have h4 : (trimQuotes (trim item.1)).length ≤ (trim item.1).length :=
    length_trimQuotes_le _
  have h5 : 0 < s.length := by
    rcases s with _ | ⟨c, rest⟩
    · exfalso
      have := item.2
      simp [getlineSplit] at this
    · simp
  omega

/-- Unfolding equation for `parseArray` without the `attach`. -/
lemma parseArray_eq (s : Str) :
    parseArray s = (getlineSplit ((s.drop 1).dropLast)).map fun item =>
      if isArray (trimQuotes (trim item)) then
        Val.arr (parseArray (trimQuotes (trim item)))
      else Val.str (trimQuotes (trim item)) := by
  rw [parseArray]
  exact List.attach_map_coe _ (fun item =>
    if isArray (trimQuotes (trim item)) = true then
      Val.arr (parseArray (trimQuotes (trim item)))
    else Val.str (trimQuotes (trim item)))

/-- Error kinds of the library, one per `SconfException` message family in
the source: `"Invalid key-value pair"`, `"Unsupported value type"`,
`"Section not found"`, `"Key not found"` / `"Key not found in section"`. -/
inductive PErr where
  | malformedLine
  | unsupportedType
  | sectionNotFound
  | keyNotFound
deriving DecidableEq

mutual

/-- `sConfParser::saveValue`: render one value.  The `switch` covers the
`Array`, `String`, `Integer`, `Double` and `Boolean` tags; every other tag
(notably `Date`, which has no case) falls to the `default:` branch and
throws the unsupported-type error. -/
def saveValue : Val → Except PErr Str
  | .arr vs =>
    match saveItems vs with
    | Except.ok inner => Except.ok ('[' :: (inner ++ [']']))
    | Except.error e => Except.error e
  | .str s => Except.ok s
  | .intg n => Except.ok (toString n).toList
  | .dbl s => Except.ok s
  | .boolean b => Except.ok (if b then "true".toList else "false".toList)
  | .date _ => Except.error PErr.unsupportedType

/-- The array-element loop of `saveValue`: elements separated by `", "`,
failing at the first element that fails. -/
def saveItems : List Val → Except PErr Str
  | [] => Except.ok []
  | [v] => saveValue v
  | v :: rest =>
    match saveValue v, saveItems rest with
    | Except.ok a, Except.ok b => Except.ok (a ++ (", ".toList ++ b))
    | Except.error e, _ => Except.error e
    | _, Except.error e => Except.error e

end

mutual

/-- Total rendering of a value, matching `saveValue` on every tag it
handles (the `date` result here is arbitrary; `saveValue` errors there). -/
def render : Val → Str
  | .str s => s
  | .intg n => (toString n).toList
  | .dbl s => s
  | .boolean b => if b then "true".toList else "false".toList
  | .date _ => []
  | .arr vs => '[' :: (renderItems vs ++ [']'])

/-- Total rendering of array elements separated by `", "`. -/
def renderItems : List Val → Str
  | [] => []
  | [v] => render v
  | v :: rest => render v ++ (", ".toList ++ renderItems rest)

end

mutual

/-- No `Date` tag occurs anywhere in the value. -/
def noDateVal : Val → Bool
  | .date _ => false
  | .arr vs => noDateList vs
  | _ => true

def noDateList : List Val → Bool
  | [] => true
  | v :: rest => noDateVal v && noDateList rest

end

/-! ## The document stores

`data : unordered_map<string, unordered_map<string, sConfValue>>` and
`comments : unordered_map<string, vector<string>>`, modelled as
insertion-ordered association lists with unique keys. -/

/-- One section's key/value map. -/
abbrev SecMap := List (Str × Val)

/-- The `data` store. -/
abbrev DataMap := List (Str × SecMap)

/-- The `comments` store. -/
abbrev CMap := List (Str × List Str)

/-- Association-list lookup (`unordered_map::find`). -/
def alookup {β : Type} : List (Str × β) → Str → Option β
  | [], _ => none
  | (k, b) :: rest, s => if k = s then some b else alookup rest s

/-- Association-list update (`unordered_map::operator[]` followed by an
assignment through `f`, which receives the present value if any);
a missing key is appended, an existing entry keeps its position. -/
def updA {β : Type} (f : Option β → β) : List (Str × β) → Str → List (Str × β)
  | [], s => [(s, f none)]
  | (k, b) :: rest, s =>
    if k = s then (k, f (some b)) :: rest else (k, b) :: updA f rest s

/-- Association-list erase (`unordered_map::erase`). -/
def eraseA {β : Type} : List (Str × β) → Str → List (Str × β)
  | [], _ => []
  | (k, b) :: rest, s => if k = s then rest else (k, b) :: eraseA rest s

/-- `this->data[currentSection][key] = sValue`. -/
def setKV (d : DataMap) (s k : Str) (v : Val) : DataMap :=
  updA (fun o => updA (fun _ => v) (o.getD []) k) d s

/-- The parser object's state during `load`: the two stores plus the
per-run `currentSection` / `commentBuffer` locals of `load`. -/
structure PState where
  data : DataMap
  comments : CMap
  cur : Str
  buf : List Str

/-- The empty parser state (`load` starts with empty section name and
comment buffer; the object's maps start empty). -/
def initState : PState := ⟨[], [], [], []⟩

/-- The body of `sConfParser::parseLine` after the initial trim: an empty
trimmed line is a no-op; a leading `;` appends a comment to the buffer;
a leading `[` with trailing `]` is a section header (the inner text of
`c :: r` is `r.dropLast`, matching `substr(1, size-2)`); anything else must
be a `key=value` line, fatal if it has no `=`. -/
def parseTrimmed : Str → PState → Except PErr PState
  | [], st => Except.ok st
  | c :: r, st =>
    if c = ';' then Except.ok { st with buf := st.buf ++ [trim r] }
    else if c = '[' ∧ (c :: r).getLast? = some ']' then
      let s := trimQuotes (trim (r.dropLast))
      let c1 := if alookup st.comments s = none then st.comments ++ [(s, [])]
                else st.comments
      Except.ok { st with
        comments := updA (fun o => o.getD [] ++ st.buf) c1 s,
        cur := s, buf := [] }
    else if '=' ∈ c :: r then
      let key := trimQuotes (trim ((c :: r).takeWhile (· ≠ '=')))
      let v0 := trim (((c :: r).dropWhile (· ≠ '=')).drop 1)
      let v1 := if ';' ∈ v0 then trimQuotes (trim (v0.takeWhile (· ≠ ';')))
                else v0
      let sv := if isArray v1 then Val.arr (parseArray v1)
                else Val.str (trimQuotes v1)
      Except.ok { st with data := setKV st.data st.cur key sv, buf := [] }
    else Except.error PErr.malformedLine

/-- `sConfParser::parseLine`: trim, then classify. -/
def parseLine (line : Str) (st : PState) : Except PErr PState :=
  parseTrimmed (trim line) st

/-- The line loop of `sConfParser::load`: process lines until exhausted or
until a line throws; the state accumulated so far survives the throw
(the maps live on the object), so the state at the failure point is
returned alongside the error. -/
def parseLines : List Str → PState → PState × Option PErr
  | [], st => (st, none)
  | l :: ls, st =>
    match parseLine l st with
    | Except.ok st' => parseLines ls st'
    | Except.error e => (st, some e)

/-- Parse a full sequence of lines from the freshly-constructed parser. -/
def parse (ls : List Str) : PState × Option PErr :=
  parseLines ls initState

/-! ## Document API -/

/-- The name normalization `trimQuotes(trim(x))` used by the API. -/
def normalize (s : Str) : Str := trimQuotes (trim s)

/-- `sConfParser::getSections`. -/
def getSections (d : DataMap) : List Str := d.map Prod.fst

/-- `sConfParser::getSection`. -/
def getSection (d : DataMap) (sec : Str) : Except PErr SecMap :=
  match alookup d (normalize sec) with
  | some m => Except.ok m
  | none => Except.error PErr.sectionNotFound

/-- `sConfParser::addSection`. -/
def addSection (d : DataMap) (sec : Str) : DataMap :=
  if (alookup d (normalize sec)).isNone then d ++ [(normalize sec, [])] else d

/-- `sConfParser::setKey`. -/
def setKey (d : DataMap) (sec key : Str) (v : Val) : Except PErr DataMap :=
  if (alookup d (normalize sec)).isNone then Except.error PErr.sectionNotFound
  else Except.ok (setKV d (normalize sec) (normalize key) v)

/-- `sConfParser::removeSection`.  Note: the source normalizes here with
`trimQuotes(section)` only — no `trim`, unlike every other operation. -/
def removeSection (d : DataMap) (cm : CMap) (sec : Str) :
    Except PErr (DataMap × CMap) :=
  if (alookup d (trimQuotes sec)).isNone then Except.error PErr.sectionNotFound
  else Except.ok (eraseA d (trimQuotes sec), eraseA cm (trimQuotes sec))

/-- `sConfParser::hasSection`. -/
def hasSection (d : DataMap) (sec : Str) : Bool :=
  (alookup d (normalize sec)).isSome

/-- `sConfParser::getSectionKeyPair` (identical body to `getSection`). -/
def getSectionKeyPair (d : DataMap) (sec : Str) : Except PErr SecMap :=
  match alookup d (normalize sec) with
  | some m => Except.ok m
  | none => Except.error PErr.sectionNotFound

/-- `sConfParser::hasSectionPairByKey`. -/
def hasSectionPairByKey (d : DataMap) (sec key : Str) : Bool :=
  match alookup d (normalize sec) with
  | none => false
  | some m => (alookup m (normalize key)).isSome

/-- `sConfParser::removeSectionPairByKey` (the `removeKey` operation).
Both failure branches of the source throw the same
`"Key not found in section"` exception. -/
def removeSectionPairByKey (d : DataMap) (sec key : Str) :
    Except PErr DataMap :=
  match alookup d (normalize sec) with
  | none => Except.error PErr.keyNotFound
  | some m =>
    if (alookup m (normalize key)).isNone then Except.error PErr.keyNotFound
    else Except.ok (updA (fun o => eraseA (o.getD []) (normalize key))
      d (normalize sec))

/-- `sConfParser::isSectionPairArray`. -/
def isSectionPairArray (d : DataMap) (sec key : Str) : Except PErr Bool :=
  match alookup d (normalize sec) with
  | none => Except.error PErr.sectionNotFound
  | some m =>
    match alookup m (normalize key) with
    | none => Except.error PErr.keyNotFound
    | some v => Except.ok v.isArr

/-- `sConfParser::isSectionPairSingleString`. -/
def isSectionPairSingleString (d : DataMap) (sec key : Str) :
    Except PErr Bool :=
  match alookup d (normalize sec) with
  | none => Except.error PErr.sectionNotFound
  | some m =>
    match alookup m (normalize key) with
    | none => Except.error PErr.keyNotFound
    | some v => Except.ok (!v.isArr)

/-- `sConfParser::getSectionComment`. -/
def getSectionComment (cm : CMap) (sec : Str) : Except PErr (List Str) :=
  match alookup cm (normalize sec) with
  | some l => Except.ok l
  | none => Except.error PErr.sectionNotFound

/-- `sConfParser::hasSectionComment`. -/
def hasSectionComment (cm : CMap) (sec : Str) : Bool :=
  match alookup cm (normalize sec) with
  | some l => !l.isEmpty
  | none => false

/-- `sConfParser::removeSectionComment` (clears the entry if present). -/
def removeSectionComment (cm : CMap) (sec : Str) : CMap :=
  match alookup cm (normalize sec) with
  | some _ => updA (fun _ => []) cm (normalize sec)
  | none => cm

/-! ## Serializer (`sConfParser::save`)

`save` walks `data`; for each section it first emits `"; "`-prefixed
comment lines (when the section has a comments entry), then the
`[name]` header, then one `key = value` line per pair. -/

/-- One emitted comment line. -/
def commentLine (c : Str) : Str := "; ".toList ++ c

/-- One emitted section-header line. -/
def headerLine (s : Str) : Str := '[' :: (s ++ [']'])

/-- One emitted key/value line (pure rendering). -/
def kvLine (k : Str) (v : Val) : Str := k ++ (" = ".toList ++ render v)

/-- The lines `save` emits for one section (pure rendering). -/
def sectionLines (cm : CMap) (sec : Str × SecMap) : List Str :=
  ((alookup cm sec.1).getD []).map commentLine
    ++ (headerLine sec.1 :: sec.2.map (fun p => kvLine p.1 p.2))

/-- All lines `save` emits (pure rendering). -/
def serializeLines (d : DataMap) (cm : CMap) : List Str :=
  (d.map (sectionLines cm)).flatten

/-- The key/value line loop of `save` for one section, with the fallible
value serializer: fails at the first value `saveValue` throws on. -/
def saveKVs : SecMap → Except PErr (List Str)
  | [] => Except.ok []
  | (k, v) :: rest =>
    match saveValue v, saveKVs rest with
    | Except.ok r, Except.ok rs =>
      Except.ok ((k ++ (" = ".toList ++ r)) :: rs)
    | Except.error e, _ => Except.error e
    | _, Except.error e => Except.error e

/-- The lines `save` emits for one section, with the fallible value
serializer. -/
def saveSection (cm : CMap) (sec : Str × SecMap) : Except PErr (List Str) :=
  match saveKVs sec.2 with
  | Except.ok kvs =>
    Except.ok (((alookup cm sec.1).getD []).map commentLine
      ++ (headerLine sec.1 :: kvs))
  | Except.error e => Except.error e

/-- `sConfParser::save`, as the sequence of emitted lines. -/
def saveLines (d : DataMap) (cm : CMap) : Except PErr (List Str) :=
  match d with
  | [] => Except.ok []
  | sec :: rest =>
    match saveSection cm sec, saveLines rest cm with
    | Except.ok a, Except.ok b => Except.ok (a ++ b)
    | Except.error e, _ => Except.error e
    | _, Except.error e => Except.error e

/-- The error of a fallible result, if any. -/
def errOf {α : Type} : Except PErr α → Option PErr
  | Except.error e => some e
  | Except.ok _ => none

/-! ## Association-list lemmas -/

lemma alookup_updA_self {β : Type} (f : Option β → β) (m : List (Str × β))
    (s : Str) : alookup (updA f m s) s = some (f (alookup m s)) := by
  induction m with
  | nil => simp [updA, alookup]
  | cons p rest ih =>
    obtain ⟨k, b⟩ := p
    by_cases hk : k = s
    · subst hk
      simp [updA, alookup]
    · simp [updA, alookup, hk, ih]

lemma alookup_updA_other {β : Type} (f : Option β → β) (m : List (Str × β))
    (s k : Str) (hk : k ≠ s) : alookup (updA f m s) k = alookup m k := by
  induction m with
  | nil =>
    simp only [updA, alookup]
    rw [if_neg (fun h : s = k => hk h.symm)]
  | cons p rest ih =>
    obtain ⟨k', b⟩ := p
    by_cases hk' : k' = s
    · subst hk'
      have : ¬ (k' = k) := fun h => hk (h ▸ rfl)
      simp [updA, alookup, this]
    · simp only [updA, if_neg hk']
      by_cases hk2 : k' = k
      · subst hk2; simp [alookup]
      · simp [alookup, hk2, ih]

lemma alookup_append {β : Type} (m1 m2 : List (Str × β)) (s : Str) :
    alookup (m1 ++ m2) s =
      match alookup m1 s with
      | some b => some b
      | none => alookup m2 s := by
  induction m1 with
  | nil => simp [alookup]
  | cons p rest ih =>
    obtain ⟨k, b⟩ := p
    by_cases hk : k = s
    · subst hk; simp [alookup]
    · simp [alookup, hk, ih]

lemma updA_append_of_none {β : Type} (f : Option β → β)
    (m1 m2 : List (Str × β)) (s : Str) (h : alookup m1 s = none) :
    updA f (m1 ++ m2) s = m1 ++ updA f m2 s := by
  induction m1 with
  | nil => simp
  | cons p rest ih =>
    obtain ⟨k, b⟩ := p
    by_cases hk : k = s
    · subst hk; simp [alookup] at h
    · simp only [alookup, if_neg hk] at h
      simp [updA, hk, ih h]

lemma updA_of_none_eq_append {β : Type} (f : Option β → β)
    (m : List (Str × β)) (s : Str) (h : alookup m s = none) :
    updA f m s = m ++ [(s, f none)] := by
  have := updA_append_of_none f m [] s h
  simpa [updA] using this

/-! ## Claim C2 — `isArray` / `parseArray` on the spec's example inputs -/

/-- Claim C2, counterexample: `parseArray "[1, 2, [3, 4]]"` does NOT return
3 values — the interior is split at every comma, so the nested array is cut
apart and 4 values come back. -/
theorem parseArray_nested_example_not_three :
    (parseArray ("[1, 2, [3, 4]]".toList)).length ≠ 3 := by
  rw [parseArray_eq]; decide

/-- Claim C2, amended: `isArray "[1, 2, 3]"` is `true`, and
`parseArray "[1, 2, [3, 4]]"` returns the 4 string values
`"1"`, `"2"`, `"[3"`, `"4]"`: the naive top-level comma split cuts the
nested array apart instead of parsing it as one element. -/
theorem parseArray_nested_example_actual :
    isArray ("[1, 2, 3]".toList) = true ∧
    parseArray ("[1, 2, [3, 4]]".toList)
      = [Val.str ['1'], Val.str ['2'],
         Val.str ['[', '3'], Val.str ['4', ']']] := by
  constructor
  · decide
  · rw [parseArray_eq]; rfl

/-! ## Claim C4 — name normalization across the document API -/

/-- Claim C4, amended: every section-name-taking operation EXCEPT
`removeSection` normalizes its name argument by `trim` followed by
`trimQuotes` before lookup, so two names with the same normal form address
the same section; `removeSection` alone applies only `trimQuotes`, without
the `trim`. -/
theorem api_normalizes_section_names (d : DataMap) (cm : CMap)
    (s1 s2 k : Str) (v : Val) (h : normalize s1 = normalize s2) :
    addSection d s1 = addSection d s2 ∧
    hasSection d s1 = hasSection d s2 ∧
    getSection d s1 = getSection d s2 ∧
    getSectionKeyPair d s1 = getSectionKeyPair d s2 ∧
    setKey d s1 k v = setKey d s2 k v ∧
    removeSectionPairByKey d s1 k = removeSectionPairByKey d s2 k ∧
    hasSectionPairByKey d s1 k = hasSectionPairByKey d s2 k ∧
    isSectionPairArray d s1 k = isSectionPairArray d s2 k ∧
    isSectionPairSingleString d s1 k = isSectionPairSingleString d s2 k ∧
    getSectionComment cm s1 = getSectionComment cm s2 ∧
    hasSectionComment cm s1 = hasSectionComment cm s2 ∧
    removeSectionComment cm s1 = removeSectionComment cm s2 := by
  unfold addSection hasSection getSection getSectionKeyPair setKey
    removeSectionPairByKey hasSectionPairByKey isSectionPairArray
    isSectionPairSingleString getSectionComment hasSectionComment
    removeSectionComment
  rw [h]
  exact ⟨rfl, rfl, rfl, rfl, rfl, rfl, rfl, rfl, rfl, rfl, rfl, rfl⟩

/-- Claim C4, witness for the amended theorem at a concrete input:
`" foo "` and `"foo"` have the same normal form and are interchangeable in
(for instance) `hasSection` and `getSection`. -/
theorem api_normalizes_section_names_witness :
    hasSection [("foo".toList, [])] (" foo ".toList)
      = hasSection [("foo".toList, [])] ("foo".toList) ∧
    getSection [("foo".toList, [])] (" foo ".toList)
      = getSection [("foo".toList, [])] ("foo".toList) := by
  have h := api_normalizes_section_names [("foo".toList, [])] []
    (" foo ".toList) ("foo".toList) [] (Val.str []) rfl
  exact ⟨h.2.1, h.2.2.1⟩

/-- Claim C4, counterexample: `removeSection` does NOT trim.  The section
`"foo"` exists and is visible through `hasSection " foo "`, yet
`removeSection " foo "` fails with the section-not-found error because the
name is only de-quoted, never trimmed. -/
theorem removeSection_does_not_trim :
    normalize (" foo ".toList) = normalize ("foo".toList) ∧
    hasSection [("foo".toList, [])] (" foo ".toList) = true ∧
    removeSection [("foo".toList, [])] [] (" foo ".toList)
      = Except.error PErr.sectionNotFound := ⟨rfl, rfl, rfl⟩

/-! ## Claim C5 — error kinds of `removeKey` -/

/-- Claim C5, counterexample: with no sections at all, `removeKey` reports
the key-not-found error — not a section-not-found error — because both
failure branches of `removeSectionPairByKey` throw the same
`"Key not found in section"` exception. -/
theorem removeKey_missing_section_wrong_kind :
    removeSectionPairByKey [] ("a".toList) ("k".toList)
      = Except.error PErr.keyNotFound ∧
    PErr.keyNotFound ≠ PErr.sectionNotFound := ⟨rfl, by decide⟩

/-- Claim C5, amended: `removeKey` fails with the SAME key-not-found error
kind both when the (normalized) section is absent and when the section
exists but the (normalized) key is absent; it succeeds otherwise. -/
theorem removeKey_error_kinds (d : DataMap) (s k : Str) :
    (alookup d (normalize s) = none →
      removeSectionPairByKey d s k = Except.error PErr.keyNotFound) ∧
    (∀ m, alookup d (normalize s) = some m → alookup m (normalize k) = none →
      removeSectionPairByKey d s k = Except.error PErr.keyNotFound) ∧
    (∀ m v, alookup d (normalize s) = some m →
      alookup m (normalize k) = some v →
      ∃ d', removeSectionPairByKey d s k = Except.ok d') := by
  refine ⟨fun h => ?_, fun m hm hk => ?_, fun m v hm hk => ?_⟩
  · unfold removeSectionPairByKey
    rw [h]
  · unfold removeSectionPairByKey
    rw [hm]
    simp [hk]
  · unfold removeSectionPairByKey
    rw [hm]
    simp [hk]

/-- Claim C5, witness: the three cases of the amended theorem at concrete
inputs (missing section; present section, missing key; both present). -/
theorem removeKey_error_kinds_witness :
    removeSectionPairByKey [] ("b".toList) ("k".toList)
      = Except.error PErr.keyNotFound ∧
    removeSectionPairByKey [("b".toList, [])] ("b".toList) ("k".toList)
      = Except.error PErr.keyNotFound ∧
    ∃ d', removeSectionPairByKey
      [("b".toList, [("k".toList, Val.str ['x'])])] ("b".toList) ("k".toList)
      = Except.ok d' :=
  ⟨(removeKey_error_kinds [] ("b".toList) ("k".toList)).1 rfl,
   (removeKey_error_kinds [("b".toList, [])] ("b".toList) ("k".toList)).2.1
     [] rfl rfl,
   (removeKey_error_kinds [("b".toList, [("k".toList, Val.str ['x'])])]
     ("b".toList) ("k".toList)).2.2 [("k".toList, Val.str ['x'])]
     (Val.str ['x']) rfl rfl⟩

/-! ## Claim C6 — idempotence of `trimQuotes` -/

/-- Claim C6, counterexample: `trimQuotes` is not idempotent.  On
`""x""` one application yields `"x"`, a second application yields `x`. -/
theorem trimQuotes_not_idempotent :
    trimQuotes (trimQuotes ['"', '"', 'x', '"', '"'])
      ≠ trimQuotes ['"', '"', 'x', '"', '"'] := by decide

/-- Claim C6, amended: `trimQuotes` is idempotent on every string whose
single de-quoting does not again produce a length-≥-2 string that begins
and ends with a quote (one layer is stripped per application, so doubly
quoted strings are the only failures). -/
theorem trimQuotes_conditionally_idempotent (s : Str)
    (h : ¬(2 ≤ (trimQuotes s).length ∧ (trimQuotes s).head? = some '"' ∧
      (trimQuotes s).getLast? = some '"')) :
    trimQuotes (trimQuotes s) = trimQuotes s := by
  have step : ∀ t : Str, ¬(2 ≤ t.length ∧ t.head? = some '"' ∧
      t.getLast? = some '"') → trimQuotes t = t := by
    intro t ht
    unfold trimQuotes
    rw [if_neg ht]
  exact step _ h

/-- Claim C6, witness: idempotence at the concrete input `"a"` (singly
quoted, so one stripping reaches a fixed point). -/
theorem trimQuotes_conditionally_idempotent_witness :
    trimQuotes (trimQuotes ['"', 'a', '"']) = trimQuotes ['"', 'a', '"'] :=
  trimQuotes_conditionally_idempotent ['"', 'a', '"'] (by decide)

/-! ## Anatomy of `parseLine`'s branches

Named pieces of the expressions `parseLine` computes, and one lemma per
branch of its `if` cascade. -/

/-- The section name a header line denotes: inner text, trimmed,
de-quoted. -/
def headerName (line : Str) : Str :=
  trimQuotes (trim (((trim line).drop 1).dropLast))

/-- The key of a key/value line: text before the first `=`, trimmed,
de-quoted. -/
def keyOf (line : Str) : Str :=
  trimQuotes (trim ((trim line).takeWhile (· ≠ '=')))

/-- The raw value text of a key/value line: text after the first `=`,
trimmed. -/
def rawVal (line : Str) : Str :=
  trim (((trim line).dropWhile (· ≠ '=')).drop 1)

/-- The value text after discarding an inline `;` trailing comment. -/
def cutVal (line : Str) : Str :=
  if ';' ∈ rawVal line then trimQuotes (trim ((rawVal line).takeWhile (· ≠ ';')))
  else rawVal line

/-- The stored value of a key/value line. -/
def valOf (line : Str) : Val :=
  if isArray (cutVal line) then Val.arr (parseArray (cutVal line))
  else Val.str (trimQuotes (cutVal line))

lemma parseLine_blank {line : Str} (st : PState) (h : trim line = []) :
    parseLine line st = Except.ok st := by
  unfold parseLine
  rw [h]
  rfl

lemma parseLine_comment {line : Str} (st : PState)
    (h : (trim line).head? = some ';') :
    parseLine line st
      = Except.ok { st with buf := st.buf ++ [trim ((trim line).drop 1)] } := by
  rcases htl : trim line with _ | ⟨c, r⟩
  · rw [htl] at h; cases h
  · rw [htl] at h
    simp only [List.head?_cons, Option.some.injEq] at h
    subst h
    unfold parseLine
    rw [htl]
    rfl

lemma parseLine_header {line : Str} (st : PState)
    (h1 : (trim line).head? = some '[')
    (h2 : (trim line).getLast? = some ']') :
    parseLine line st = Except.ok { st with
      comments := updA (fun o => o.getD [] ++ st.buf)
        (if alookup st.comments (headerName line) = none then
          st.comments ++ [(headerName line, [])]
        else st.comments) (headerName line),
      cur := headerName line, buf := [] } := by
  rcases htl : trim line with _ | ⟨c, r⟩
  · rw [htl] at h1; cases h1
  · rw [htl] at h1 h2
    simp only [List.head?_cons, Option.some.injEq] at h1
    subst h1
    unfold parseLine headerName
    rw [htl]
    rw [parseTrimmed]
    rw [if_neg (by decide : ¬(('[' : Char) = ';'))]
    rw [if_pos ⟨rfl, h2⟩]
    rfl

lemma parseLine_kv {line : Str} (st : PState)
    (hne : trim line ≠ [])
    (hc : (trim line).head? ≠ some ';')
    (hn : ¬((trim line).head? = some '[' ∧ (trim line).getLast? = some ']'))
    (he : '=' ∈ trim line) :
    parseLine line st = Except.ok { st with
      data := setKV st.data st.cur (keyOf line) (valOf line),
      buf := [] } := by
  rcases htl : trim line with _ | ⟨c, r⟩
  · exact absurd htl hne
  · rw [htl] at hc hn he
    simp only [List.head?_cons] at hc hn
    unfold parseLine keyOf valOf cutVal rawVal
    rw [htl]
    simp only [parseTrimmed]
    rw [if_neg (fun h : c = ';' => hc (by rw [h]))]
    rw [if_neg (fun h : c = '[' ∧ (c :: r).getLast? = some ']' =>
      hn ⟨by rw [h.1], h.2⟩)]
    rw [if_pos he]

/-- The comments entry a header line produces for its section: the prior
entry (empty if none) extended with the buffered comments. -/
lemma header_comments_lookup (st : PState) (sec : Str) :
    alookup (updA (fun o => o.getD [] ++ st.buf)
      (if alookup st.comments sec = none then st.comments ++ [(sec, [])]
       else st.comments) sec) sec
      = some ((alookup st.comments sec).getD [] ++ st.buf) := by
  rcases hc : alookup st.comments sec with _ | l
  · rw [if_pos rfl, alookup_updA_self, alookup_append, hc]
    simp [alookup]
  · rw [if_neg (fun h => Option.noConfusion h), alookup_updA_self, hc]

/-! ## Parse-run lemmas -/

lemma parseLines_append (a b : List Str) (st : PState) :
    parseLines (a ++ b) st =
      match parseLines a st with
      | (st', none) => parseLines b st'
      | (st', some e) => (st', some e) := by
  induction a generalizing st with
  | nil => rw [List.nil_append, parseLines]
  | cons l ls ih =>
    rw [List.cons_append, parseLines, parseLines]
    rcases parseLine l st with e | st'
    · rfl
    · exact ih st'

/-- Blank and comment lines leave `data` and `currentSection` unchanged
across a whole run. -/
lemma parseLines_skippable (pre : List Str) :
    ∀ st : PState,
      (∀ p ∈ pre, trim p = [] ∨ (trim p).head? = some ';') →
      ∃ st', parseLines pre st = (st', none) ∧
        st'.data = st.data ∧ st'.cur = st.cur := by
  induction pre with
  | nil => exact fun st _ => ⟨st, rfl, rfl, rfl⟩
  | cons l ls ih =>
    intro st h
    rcases h l (List.mem_cons_self _ _) with hb | hcm
    · obtain ⟨st', h1, h2, h3⟩ :=
        ih st (fun p hp => h p (List.mem_cons_of_mem _ hp))
      refine ⟨st', ?_, h2, h3⟩
      rw [parseLines, parseLine_blank st hb]
      exact h1
    · obtain ⟨st', h1, h2, h3⟩ :=
        ih { st with buf := st.buf ++ [trim ((trim l).drop 1)] }
          (fun p hp => h p (List.mem_cons_of_mem _ hp))
      refine ⟨st', ?_, h2, h3⟩
      rw [parseLines, parseLine_comment st hcm]
      exact h1

/-- Whatever a successful `parseLine` does, the `data` store is either
untouched or extended by one key assignment under the current section. -/
lemma parseLine_data_shape {l : Str} {st st' : PState}
    (hp : parseLine l st = Except.ok st') :
    st'.data = st.data ∨
      ∃ key sv, st'.data = setKV st.data st.cur key sv := by
  unfold parseLine at hp
  rcases htl : trim l with _ | ⟨c, r⟩
  · rw [htl, parseTrimmed] at hp
    cases hp
    exact Or.inl rfl
  · rw [htl, parseTrimmed] at hp
    split at hp
    · cases hp; exact Or.inl rfl
    · split at hp
      · cases hp; exact Or.inl rfl
      · split at hp
        · cases hp; exact Or.inr ⟨_, _, rfl⟩
        · cases hp

lemma alookup_setKV_mono {d : DataMap} {s k : Str} (s0 k0 : Str) (v : Val)
    (h : ∃ m, alookup d s = some m ∧ (alookup m k).isSome = true) :
    ∃ m', alookup (setKV d s0 k0 v) s = some m' ∧
      (alookup m' k).isSome = true := by
  obtain ⟨m, hm, hk⟩ := h
  by_cases hss : s = s0
  · subst hss
    unfold setKV
    rw [alookup_updA_self, hm]
    refine ⟨_, rfl, ?_⟩
    show (alookup (updA (fun _ => v) m k0) k).isSome = true
    by_cases hkk : k = k0
    · subst hkk
      rw [alookup_updA_self]
      rfl
    · rw [alookup_updA_other _ _ _ _ hkk, hk]
  · unfold setKV
    rw [alookup_updA_other _ _ _ _ hss]
    exact ⟨m, hm, hk⟩

/-- A key, once present, survives the rest of the parse: no branch of
`parseLine` ever removes a section or key. -/
lemma parseLines_key_mono (ls : List Str) :
    ∀ (st : PState) (s k : Str),
      (∃ m, alookup st.data s = some m ∧ (alookup m k).isSome = true) →
      ∃ m', alookup (parseLines ls st).1.data s = some m' ∧
        (alookup m' k).isSome = true := by
  induction ls with
  | nil => exact fun st s k h => h
  | cons l rest ih =>
    intro st s k h
    rw [parseLines]
    rcases hp : parseLine l st with e | st'
    · exact h
    · rcases parseLine_data_shape hp with hd | ⟨key, sv, hd⟩
      · exact ih st' s k (hd ▸ h)
      · exact ih st' s k (hd ▸ alookup_setKV_mono _ _ _ h)

/-! ## Claim C3 — reachability of the serializer's default branch -/

/-- Structural induction over `Val`, threading the hypothesis through the
elements of a nested array. -/
def val_ind {P : Val → Prop} (hstr : ∀ s, P (Val.str s))
    (hintg : ∀ n, P (Val.intg n)) (hdbl : ∀ s, P (Val.dbl s))
    (hbool : ∀ b, P (Val.boolean b)) (hdate : ∀ s, P (Val.date s))
    (harr : ∀ vs, (∀ v ∈ vs, P v) → P (Val.arr vs)) : ∀ v, P v
  | .str s => hstr s
  | .intg n => hintg n
  | .dbl s => hdbl s
  | .boolean b => hbool b
  | .date s => hdate s
  | .arr vs =>
    harr vs (fun w _ => val_ind hstr hintg hdbl hbool hdate harr w)
termination_by v => sizeOf v
decreasing_by
  rename_i hw
  have := List.sizeOf_lt_of_mem hw
  simp only [Val.arr.sizeOf_spec]
  omega

lemma saveItems_ok_of_noDate (vs : List Val)
    (ih : ∀ v ∈ vs, noDateVal v = true → ∃ out, saveValue v = Except.ok out)
    (h : noDateList vs = true) : ∃ out, saveItems vs = Except.ok out := by
  induction vs with
  | nil => exact ⟨[], by simp [saveItems]⟩
  | cons v rest ihl =>
    rw [noDateList] at h
    have hv : noDateVal v = true := by
      cases hnv : noDateVal v
      · rw [hnv] at h; simp at h
      · rfl
    have hrest : noDateList rest = true := by
      cases hnr : noDateList rest
      · rw [hnr] at h; simp at h
      · rfl
    obtain ⟨a, ha⟩ := ih v (List.mem_cons_self _ _) hv
    rcases rest with _ | ⟨w, rs⟩
    · exact ⟨a, by rw [saveItems]; exact ha⟩
    · obtain ⟨b, hb⟩ := ihl
        (fun u hu hnu => ih u (List.mem_cons_of_mem _ hu) hnu) hrest
      refine ⟨a ++ (", ".toList ++ b), ?_⟩
      rw [saveItems, ha, hb]
      exact fun h => absurd h (List.cons_ne_nil _ _)

/-- Claim C3, amended: for every value built only from the five variants
the serializer's `switch` handles — String, Integer, Double, Boolean and
Array (recursively) — serialization never reaches the fatal
unsupported-type default branch.  The Date variant, although in the base
set, is NOT handled and does reach it (see the counterexample). -/
theorem saveValue_ok_of_noDate :
    ∀ v : Val, noDateVal v = true → ∃ out, saveValue v = Except.ok out := by
  refine val_ind ?_ ?_ ?_ ?_ ?_ ?_
  · exact fun s _ => ⟨s, by simp [saveValue]⟩
  · exact fun n _ => ⟨(toString n).toList, by simp [saveValue]⟩
  · exact fun s _ => ⟨s, by simp [saveValue]⟩
  · exact fun b _ =>
      ⟨if b then "true".toList else "false".toList, by simp [saveValue]⟩
  · intro s hd
    exfalso
    rw [noDateVal.eq_def] at hd
    simp at hd
  · intro vs ih hnd
    rw [noDateVal.eq_def] at hnd
    obtain ⟨inner, hi⟩ := saveItems_ok_of_noDate vs ih hnd
    exact ⟨'[' :: (inner ++ [']']), by simp [saveValue, hi]⟩

/-- Claim C3, witness: a date-free nested value serializes successfully. -/
theorem saveValue_ok_of_noDate_witness :
    ∃ out, saveValue (Val.arr [Val.str ['a'], Val.intg 5,
      Val.arr [Val.boolean true]]) = Except.ok out :=
  saveValue_ok_of_noDate _ (by simp [noDateVal, noDateList])

/-- Claim C3, counterexample: a `Date` value — a member of the claim's base
variant set — reaches the serializer's fatal unsupported-type default
branch, because the `switch` in `saveValue` has no `Date` case. -/
theorem saveValue_date_unsupported :
    saveValue (Val.date "2024-01-01 00:00:00".toList)
      = Except.error PErr.unsupportedType := by
  rw [saveValue]

/-! ## Claim C8 — `setKey` does not auto-create sections -/

/-- Claim C8: `setKey` fails with the section-not-found error whenever the
normalized section is absent (the API never auto-creates a section on key
assignment), and `addSection` followed by `setKey` with the same name
succeeds and stores the value under the normalized key in that section. -/
theorem setKey_requires_existing_section (d : DataMap) (s k : Str)
    (v : Val) :
    ((alookup d (normalize s)).isNone = true →
      setKey d s k v = Except.error PErr.sectionNotFound) ∧
    (∃ d', setKey (addSection d s) s k v = Except.ok d' ∧
      ∃ m, alookup d' (normalize s) = some m ∧
        alookup m (normalize k) = some v) := by
  constructor
  · intro h
    unfold setKey
    rw [if_pos h]
  · rcases hl : alookup d (normalize s) with _ | m0
    · have h1 : addSection d s = d ++ [(normalize s, [])] := by
        unfold addSection
        rw [hl]
        rfl
      have h2 : alookup (addSection d s) (normalize s) = some [] := by
        rw [h1, alookup_append, hl]
        simp [alookup]
      have h3 : setKey (addSection d s) s k v = Except.ok
          (setKV (addSection d s) (normalize s) (normalize k) v) := by
        unfold setKey
        rw [h2]
        rfl
      refine ⟨_, h3, ?_⟩
      unfold setKV
      rw [alookup_updA_self, h2]
      refine ⟨_, rfl, ?_⟩
      show alookup (updA (fun _ => v) [] (normalize k)) (normalize k)
        = some v
      rw [alookup_updA_self]
    · have h1 : addSection d s = d := by
        unfold addSection
        rw [hl]
        rfl
      have h2 : alookup (addSection d s) (normalize s) = some m0 := by
        rw [h1, hl]
      have h3 : setKey (addSection d s) s k v = Except.ok
          (setKV (addSection d s) (normalize s) (normalize k) v) := by
        unfold setKey
        rw [h2]
        rfl
      refine ⟨_, h3, ?_⟩
      unfold setKV
      rw [alookup_updA_self, h2]
      refine ⟨_, rfl, ?_⟩
      show alookup (updA (fun _ => v) m0 (normalize k)) (normalize k)
        = some v
      rw [alookup_updA_self]

/-- Claim C8, witness: at concrete inputs, `setKey` on an empty document
fails with the section-not-found error, while `addSection` followed by
`setKey` stores the value. -/
theorem setKey_requires_existing_section_witness :
    setKey [] ("sec".toList) ("k".toList) (Val.str ['x'])
      = Except.error PErr.sectionNotFound ∧
    ∃ d', setKey (addSection [] ("sec".toList)) ("sec".toList) ("k".toList)
        (Val.str ['x']) = Except.ok d' ∧
      ∃ m, alookup d' (normalize ("sec".toList)) = some m ∧
        alookup m (normalize ("k".toList)) = some (Val.str ['x']) :=
  ⟨(setKey_requires_existing_section [] ("sec".toList) ("k".toList)
      (Val.str ['x'])).1 rfl,
   (setKey_requires_existing_section [] ("sec".toList) ("k".toList)
      (Val.str ['x'])).2⟩

/-! ## Claim C7 — the comment-buffer discipline of `parseLine` -/

/-- Claim C7: per parsed line — a blank line is a complete no-op (buffer
kept), a comment line appends to the buffer (prior contents kept), a
section-header line clears the buffer and records the section in the
Comments map (prior entry extended with the buffered comments, possibly
none) while leaving the Document untouched, and a key/value line clears
the buffer and performs the one `data` assignment that (first) creates
the current section in the Document. -/
theorem parse_comment_buffer_discipline (line : Str) (st : PState) :
    (trim line = [] → parseLine line st = Except.ok st) ∧
    ((trim line).head? = some ';' →
      parseLine line st = Except.ok
        { st with buf := st.buf ++ [trim ((trim line).drop 1)] }) ∧
    ((trim line).head? = some '[' → (trim line).getLast? = some ']' →
      ∃ st', parseLine line st = Except.ok st' ∧
        st'.data = st.data ∧ st'.buf = [] ∧ st'.cur = headerName line ∧
        alookup st'.comments (headerName line)
          = some ((alookup st.comments (headerName line)).getD []
            ++ st.buf)) ∧
    (trim line ≠ [] → (trim line).head? ≠ some ';' →
      ¬((trim line).head? = some '[' ∧ (trim line).getLast? = some ']') →
      '=' ∈ trim line →
      ∃ st', parseLine line st = Except.ok st' ∧
        st'.buf = [] ∧ st'.comments = st.comments ∧ st'.cur = st.cur ∧
        st'.data = setKV st.data st.cur (keyOf line) (valOf line) ∧
        (alookup st'.data st.cur).isSome = true) := by
  refine ⟨parseLine_blank st, parseLine_comment st, ?_, ?_⟩
  · intro h1 h2
    refine ⟨_, parseLine_header st h1 h2, rfl, rfl, rfl, ?_⟩
    exact header_comments_lookup st (headerName line)
  · intro hne hc hn he
    refine ⟨_, parseLine_kv st hne hc hn he, rfl, rfl, rfl, rfl, ?_⟩
    show (alookup (setKV st.data st.cur (keyOf line) (valOf line))
      st.cur).isSome = true
    unfold setKV
    rw [alookup_updA_self]
    rfl

/-- Claim C7, witness: the four behaviours at concrete lines, starting from
a state carrying one buffered comment under section `s`. -/
theorem parse_comment_buffer_discipline_witness :
    (parseLine ("   ".toList) ⟨[], [], ['s'], [['n']]⟩
      = Except.ok ⟨[], [], ['s'], [['n']]⟩) ∧
    (parseLine ("; note".toList) ⟨[], [], ['s'], [['n']]⟩
      = Except.ok ⟨[], [], ['s'],
          [['n']] ++ [trim ((trim ("; note".toList)).drop 1)]⟩) ∧
    (∃ st', parseLine ("[sec]".toList) ⟨[], [], ['s'], [['n']]⟩
        = Except.ok st' ∧
      st'.data = [] ∧ st'.buf = [] ∧
      st'.cur = headerName ("[sec]".toList) ∧
      alookup st'.comments (headerName ("[sec]".toList))
        = some ((alookup ([] : CMap) (headerName ("[sec]".toList))).getD []
          ++ [['n']])) ∧
    (∃ st', parseLine ("k = v".toList) ⟨[], [], ['s'], [['n']]⟩
        = Except.ok st' ∧
      st'.buf = [] ∧ st'.comments = [] ∧ st'.cur = ['s'] ∧
      st'.data = setKV [] ['s'] (keyOf ("k = v".toList))
        (valOf ("k = v".toList)) ∧
      (alookup st'.data ['s']).isSome = true) :=
  ⟨(parse_comment_buffer_discipline ("   ".toList)
      ⟨[], [], ['s'], [['n']]⟩).1 (by decide),
   (parse_comment_buffer_discipline ("; note".toList)
      ⟨[], [], ['s'], [['n']]⟩).2.1 (by decide),
   (parse_comment_buffer_discipline ("[sec]".toList)
      ⟨[], [], ['s'], [['n']]⟩).2.2.1 (by decide) (by decide),
   (parse_comment_buffer_discipline ("k = v".toList)
      ⟨[], [], ['s'], [['n']]⟩).2.2.2 (by decide) (by decide)
      (by decide) (by decide)⟩

/-! ## Claim C9 — keys before any section header land in section `""` -/

/-- Claim C9: if every line before `l` is blank or a comment and `l` is a
key/value line (not blank, not a comment, not a section header, contains
`=`), then the parsed document stores `l`'s key under the section named by
the empty string — `currentSection` starts empty — and that key survives
the remaining lines. -/
theorem keys_before_any_header_go_to_unnamed_section
    (pre : List Str) (l : Str) (rest : List Str)
    (hpre : ∀ p ∈ pre, trim p = [] ∨ (trim p).head? = some ';')
    (hc : (trim l).head? ≠ some ';')
    (hn : ¬((trim l).head? = some '[' ∧ (trim l).getLast? = some ']'))
    (he : '=' ∈ trim l) :
    ∃ m, alookup (parse (pre ++ l :: rest)).1.data [] = some m ∧
      (alookup m (keyOf l)).isSome = true := by
  have hne : trim l ≠ [] := by
    intro h
    rw [h] at he
    cases he
  unfold parse
  rw [parseLines_append]
  obtain ⟨st1, h1, hdata, hcur⟩ := parseLines_skippable pre initState hpre
  rw [h1]
  show ∃ m, alookup (parseLines (l :: rest) st1).1.data [] = some m ∧
    (alookup m (keyOf l)).isSome = true
  rw [parseLines, parseLine_kv st1 hne hc hn he]
  apply parseLines_key_mono
  refine ⟨updA (fun _ => valOf l) [] (keyOf l), ?_, ?_⟩
  · show alookup (setKV st1.data st1.cur (keyOf l) (valOf l)) []
      = some (updA (fun _ => valOf l) [] (keyOf l))
    rw [hdata, hcur]
    show alookup (setKV [] [] (keyOf l) (valOf l)) []
      = some (updA (fun _ => valOf l) [] (keyOf l))
    unfold setKV
    rw [alookup_updA_self]
    rfl
  · rw [alookup_updA_self]
    rfl

/-- Claim C9, witness: a comment line and a blank line followed by
`a = 1` put key `a` into the section named `""`, even when a section
header follows later. -/
theorem keys_before_any_header_witness :
    ∃ m, alookup (parse (["; c".toList, "".toList] ++
        ("a = 1".toList) :: ["[s]".toList])).1.data [] = some m ∧
      (alookup m (keyOf ("a = 1".toList))).isSome = true :=
  keys_before_any_header_go_to_unnamed_section
    ["; c".toList, "".toList] ("a = 1".toList) ["[s]".toList]
    (by decide) (by decide) (by decide) (by decide)

/-! ## Round-trip cleanliness conditions (claim C1)

The predicates below delimit the documents whose serialization parses back
to the same document: names, keys and comments that the per-line
normalizations (`trim`, `trimQuotes`) leave unchanged, string payloads
free of the grammar's meta-characters, and arrays whose rendering the
naive comma split can re-tokenize. -/

/-- The string neither starts nor ends with whitespace (so `trim` leaves
it unchanged). -/
def noWsEnds (s : Str) : Bool :=
  (match s.head? with
   | some c => !isWs c
   | none => true) &&
  (match s.getLast? with
   | some c => !isWs c
   | none => true)

/-- The string matches the shape `trimQuotes` strips: length ≥ 2,
first and last character `"`. -/
def quotedForm (s : Str) : Bool :=
  decide (2 ≤ s.length) && (s.head? == some '"') && (s.getLast? == some '"')

/-- Characters with grammatical meaning inside a value. -/
def forbiddenChar (c : Char) : Bool :=
  c == ',' || c == ';' || c == '[' || c == ']' || c == '"'

/-- A scalar string payload that serializes and re-parses verbatim. -/
def cleanScalar (s : Str) : Bool :=
  s.all (fun c => !forbiddenChar c) && noWsEnds s

/-- The one array shape the re-parse collapses: `[""]` renders as `[]`,
which parses back to the empty array. -/
def isSingletonEmptyStr : List Val → Bool
  | [Val.str []] => true
  | _ => false

mutual

/-- A value that survives the serialize/parse round trip: a clean scalar
string, or an array of such values none of whose renderings contains a
comma (ruling out nested arrays of two or more elements, which the naive
comma split would cut apart) and which is not the collapsing `[""]`.
Numeric, boolean and date variants are excluded: the parser stores every
scalar as a String variant, so re-parsing cannot reproduce them. -/
def cleanVal : Val → Bool
  | .str s => cleanScalar s
  | .arr vs => cleanItems vs && !isSingletonEmptyStr vs
  | _ => false

def cleanItems : List Val → Bool
  | [] => true
  | v :: rest => cleanVal v && !((render v).contains ',') && cleanItems rest

end

/-- A section name the header round trip preserves. -/
def cleanName (s : Str) : Bool := noWsEnds s && !quotedForm s

/-- A key the key/value-line round trip preserves: non-empty, fixed by
`trim` and `trimQuotes`, free of `=`, and not starting with the comment
or header marker. -/
def cleanKey (k : Str) : Bool :=
  !k.isEmpty && noWsEnds k && !quotedForm k && !k.contains '=' &&
  !(k.head? == some ';') && !(k.head? == some '[')

/-- A document (with its comments map) whose serialization parses back to
the same document. -/
def cleanDoc (d : DataMap) (cm : CMap) : Prop :=
  (d.map Prod.fst).Nodup ∧
  (∀ sec ∈ d, cleanName sec.1 = true ∧ sec.2 ≠ [] ∧
    (sec.2.map Prod.fst).Nodup ∧
    ∀ p ∈ sec.2, cleanKey p.1 = true ∧ cleanVal p.2 = true) ∧
  (∀ sec ∈ d, ∀ c ∈ (alookup cm sec.1).getD [], noWsEnds c = true)

/-! ## String lemmas for the round trip -/

lemma dropWhile_isWs_eq_self {s : Str}
    (h : ∀ c, s.head? = some c → isWs c = false) :
    s.dropWhile isWs = s := by
  cases s with
  | nil => rfl
  | cons c r =>
    rw [List.dropWhile_cons, h c rfl]
    simp

lemma dropWhileEnd_isWs_eq_self {s : Str}
    (h : ∀ c, s.getLast? = some c → isWs c = false) :
    dropWhileEnd isWs s = s := by
  unfold dropWhileEnd
  cases hrev : s.reverse with
  | nil =>
    rw [List.dropWhile_nil]
    rw [← hrev, List.reverse_reverse]
  | cons c t =>
    have hl : s.getLast? = some c := by
      rw [List.getLast?_eq_head?_reverse, hrev]
      rfl
    rw [List.dropWhile_cons, h c hl]
    simp only [Bool.false_eq_true, if_false]
    rw [← hrev, List.reverse_reverse]

lemma trim_eq_self {s : Str} (h : noWsEnds s = true) : trim s = s := by
  unfold noWsEnds at h
  rw [Bool.and_eq_true] at h
  unfold trim
  rw [dropWhile_isWs_eq_self, dropWhileEnd_isWs_eq_self]
  · intro c hc
    rw [hc] at h
    simpa using h.2
  · intro c hc
    rw [hc] at h
    simpa using h.1

lemma trim_cons_space (s : Str) : trim (' ' :: s) = trim s := by
  unfold trim
  rw [List.dropWhile_cons]
  rfl

lemma trimQuotes_eq_self {s : Str} (h : quotedForm s = false) :
    trimQuotes s = s := by
  unfold trimQuotes
  rw [if_neg]
  intro ⟨h1, h2, h3⟩
  unfold quotedForm at h
  rw [h2, h3] at h
  simp [h1] at h

/-- Appending a trailing space does not change the trim of a string with a
non-whitespace last character. -/
lemma trim_append_space {k : Str} (h : noWsEnds k = true) :
    trim (k ++ [' ']) = k := by
  rcases k with _ | ⟨a, r⟩
  · rfl
  · unfold trim
    rw [dropWhile_isWs_eq_self]
    · unfold dropWhileEnd
      rw [List.reverse_append]
      show ((' ' :: (a :: r).reverse).dropWhile isWs).reverse = a :: r
      rw [List.dropWhile_cons]
      rw [show isWs ' ' = true from rfl]
      simp only [if_true]
      have hrev : (a :: r).reverse.dropWhile isWs = (a :: r).reverse := by
        apply dropWhile_isWs_eq_self
        intro c hc
        rw [← List.getLast?_eq_head?_reverse] at hc
        unfold noWsEnds at h
        rw [Bool.and_eq_true] at h
        rw [hc] at h
        simpa using h.2
      rw [hrev, List.reverse_reverse]
    · intro c hc
      rw [List.cons_append, List.head?_cons] at hc
      cases hc
      unfold noWsEnds at h
      rw [Bool.and_eq_true] at h
      rw [List.head?_cons] at h
      simpa using h.1

/-! ## Rendering lemmas for clean values -/

lemma render_str (s : Str) : render (Val.str s) = s := by
  rw [render]

lemma render_arr (vs : List Val) :
    render (Val.arr vs) = '[' :: (renderItems vs ++ [']']) := by
  rw [render]

lemma renderItems_nil : renderItems [] = [] := by
  rw [renderItems]

lemma renderItems_single (v : Val) : renderItems [v] = render v := by
  rw [renderItems]

lemma renderItems_cons (v w : Val) (rs : List Val) :
    renderItems (v :: w :: rs)
      = render v ++ (", ".toList ++ renderItems (w :: rs)) := by
  rw [renderItems]
  exact fun h => absurd h (List.cons_ne_nil _ _)

lemma cleanVal_str (s : Str) : cleanVal (Val.str s) = cleanScalar s := by
  rw [cleanVal]

lemma cleanVal_arr (vs : List Val) :
    cleanVal (Val.arr vs) = (cleanItems vs && !isSingletonEmptyStr vs) := by
  rw [cleanVal]

lemma cleanVal_intg (n : Int) : cleanVal (Val.intg n) = false := by
  rw [cleanVal]
  · exact fun s h => Val.noConfusion h
  · exact fun vs h => Val.noConfusion h

lemma cleanVal_dbl (s : Str) : cleanVal (Val.dbl s) = false := by
  rw [cleanVal]
  · exact fun s h => Val.noConfusion h
  · exact fun vs h => Val.noConfusion h

lemma cleanVal_boolean (b : Bool) : cleanVal (Val.boolean b) = false := by
  rw [cleanVal]
  · exact fun s h => Val.noConfusion h
  · exact fun vs h => Val.noConfusion h

lemma cleanVal_date (s : Str) : cleanVal (Val.date s) = false := by
  rw [cleanVal]
  · exact fun s h => Val.noConfusion h
  · exact fun vs h => Val.noConfusion h

lemma cleanItems_nil : cleanItems [] = true := by
  rw [cleanItems]

lemma cleanItems_cons (v : Val) (rest : List Val) :
    cleanItems (v :: rest)
      = (cleanVal v && !((render v).contains ',') && cleanItems rest) := by
  rw [cleanItems]

lemma not_mem_of_contains_eq_false {l : Str} {c : Char}
    (h : l.contains c = false) : c ∉ l := by
  intro hm
  have : l.elem c = true := List.elem_iff.mpr hm
  rw [show l.elem c = l.contains c from rfl, h] at this
  cases this

lemma cleanScalar_not_forbidden {s : Str} {c : Char}
    (h : cleanScalar s = true) (hc : c ∈ s) : forbiddenChar c = false := by
  unfold cleanScalar at h
  rw [Bool.and_eq_true, List.all_eq_true] at h
  have := h.1 c hc
  simpa using this

lemma cleanScalar_noWsEnds {s : Str} (h : cleanScalar s = true) :
    noWsEnds s = true := by
  unfold cleanScalar at h
  rw [Bool.and_eq_true] at h
  exact h.2

lemma quotedForm_nil : quotedForm [] = false := rfl

lemma quotedForm_eq_false_of_head {s : Str} {c : Char}
    (hc : s.head? = some c) (hne : c ≠ '"') : quotedForm s = false := by
  unfold quotedForm
  rw [hc]
  simp [hne]

lemma head_mem_of_head? {s : Str} {c : Char} (h : s.head? = some c) :
    c ∈ s := by
  cases s with
  | nil => cases h
  | cons a r =>
    rw [List.head?_cons] at h
    cases h
    exact List.mem_cons_self _ _

lemma getLast_mem_of_getLast? {s : Str} {c : Char}
    (h : s.getLast? = some c) : c ∈ s := by
  rw [List.getLast?_eq_head?_reverse] at h
  have := head_mem_of_head? h
  rwa [List.mem_reverse] at this

lemma render_noWsEnds {v : Val} (h : cleanVal v = true) :
    noWsEnds (render v) = true := by
  cases v with
  | str s =>
    rw [render_str]
    rw [cleanVal_str] at h
    exact cleanScalar_noWsEnds h
  | arr vs =>
    rw [render_arr]
    have hlast : ('[' :: (renderItems vs ++ [']'])).getLast? = some ']' := by
      rw [show '[' :: (renderItems vs ++ [']'])
          = ('[' :: renderItems vs) ++ [']'] from rfl]
      exact List.getLast?_concat _
    unfold noWsEnds
    rw [List.head?_cons, hlast]
    rfl
  | intg n => rw [cleanVal_intg] at h; cases h
  | dbl s => rw [cleanVal_dbl] at h; cases h
  | boolean b => rw [cleanVal_boolean] at h; cases h
  | date s => rw [cleanVal_date] at h; cases h

lemma render_trim_self {v : Val} (h : cleanVal v = true) :
    trim (render v) = render v :=
  trim_eq_self (render_noWsEnds h)

lemma render_quotedForm {v : Val} (h : cleanVal v = true) :
    quotedForm (render v) = false := by
  cases v with
  | str s =>
    rw [render_str]
    rw [cleanVal_str] at h
    cases s with
    | nil => exact quotedForm_nil
    | cons a r =>
      refine quotedForm_eq_false_of_head (List.head?_cons) ?_
      intro ha
      have := cleanScalar_not_forbidden h (List.mem_cons_self a r)
      rw [ha] at this
      cases this
  | arr vs =>
    rw [render_arr]
    exact quotedForm_eq_false_of_head (List.head?_cons) (by decide)
  | intg n => rw [cleanVal_intg] at h; cases h
  | dbl s => rw [cleanVal_dbl] at h; cases h
  | boolean b => rw [cleanVal_boolean] at h; cases h
  | date s => rw [cleanVal_date] at h; cases h

lemma render_trimQuotes_self {v : Val} (h : cleanVal v = true) :
    trimQuotes (render v) = render v :=
  trimQuotes_eq_self (render_quotedForm h)

lemma render_ne_nil {v : Val} (h : cleanVal v = true)
    (hne : v ≠ Val.str []) : render v ≠ [] := by
  cases v with
  | str s =>
    rw [render_str]
    intro hs
    exact hne (by rw [hs])
  | arr vs =>
    rw [render_arr]
    exact List.cons_ne_nil _ _
  | intg n => rw [cleanVal_intg] at h; cases h
  | dbl s => rw [cleanVal_dbl] at h; cases h
  | boolean b => rw [cleanVal_boolean] at h; cases h
  | date s => rw [cleanVal_date] at h; cases h

lemma isArray_of_cleanScalar {s : Str} (h : cleanScalar s = true) :
    isArray s = false := by
  cases s with
  | nil => rfl
  | cons a r =>
    unfold isArray
    have := cleanScalar_not_forbidden h (List.mem_cons_self a r)
    have ha : a ≠ '[' := by
      intro hh
      rw [hh] at this
      cases this
    rw [List.head?_cons]
    simp [ha]

lemma isArray_render_arr (vs : List Val) :
    isArray (render (Val.arr vs)) = true := by
  rw [render_arr]
  unfold isArray
  have hlast : ('[' :: (renderItems vs ++ [']'])).getLast? = some ']' := by
    rw [show '[' :: (renderItems vs ++ [']'])
        = ('[' :: renderItems vs) ++ [']'] from rfl]
    exact List.getLast?_concat _
  rw [List.head?_cons, hlast]
  rfl

/-- No semicolon occurs in the rendering of a clean value. -/
lemma render_no_semi :
    ∀ v : Val, cleanVal v = true → ';' ∉ render v := by
  have hlist : ∀ vs : List Val,
      (∀ v ∈ vs, cleanVal v = true → ';' ∉ render v) →
      cleanItems vs = true → ';' ∉ renderItems vs := by
    intro vs
    induction vs with
    | nil =>
      intro _ _
      rw [renderItems_nil]
      exact List.not_mem_nil _
    | cons v rest ih =>
      intro hall hcl
      rw [cleanItems_cons, Bool.and_eq_true, Bool.and_eq_true] at hcl
      have hv : cleanVal v = true := hcl.1.1
      have hrest : cleanItems rest = true := hcl.2
      rcases rest with _ | ⟨w, rs⟩
      · rw [renderItems_single]
        exact hall v (List.mem_cons_self _ _) hv
      · rw [renderItems_cons]
        intro hm
        rcases List.mem_append.mp hm with hm1 | hm2
        · exact hall v (List.mem_cons_self _ _) hv hm1
        · rcases List.mem_append.mp hm2 with hm3 | hm4
          · exact absurd hm3 (by decide)
          · exact ih (fun u hu => hall u (List.mem_cons_of_mem _ hu))
              hrest hm4
  refine val_ind ?_ ?_ ?_ ?_ ?_ ?_
  · intro s h hm
    rw [cleanVal_str] at h
    rw [render_str] at hm
    have := cleanScalar_not_forbidden h hm
    cases this
  · intro n h; rw [cleanVal_intg] at h; cases h
  · intro s h; rw [cleanVal_dbl] at h; cases h
  · intro b h; rw [cleanVal_boolean] at h; cases h
  · intro s h; rw [cleanVal_date] at h; cases h
  · intro vs ih h hm
    rw [cleanVal_arr, Bool.and_eq_true] at h
    rw [render_arr] at hm
    rcases List.mem_cons.mp hm with h1 | h2
    · exact absurd h1 (by decide)
    · rcases List.mem_append.mp h2 with h3 | h4
      · exact hlist vs ih h.1 h3
      · exact absurd h4 (by decide)

/-! ## Re-tokenizing a rendered array -/

lemma getlineSplit_comma_cons (b : Str) :
    getlineSplit (',' :: b) = [] :: getlineSplit b := rfl

lemma getlineSplit_cons_ne {c : Char} (rest : Str) (hc : c ≠ ',') :
    getlineSplit (c :: rest) = (match getlineSplit rest with
      | [] => [[c]]
      | t :: ts => (c :: t) :: ts) := by
  cases c with
  | mk cv hcv =>
    rw [getlineSplit.eq_def]
    split
    · rename_i heq; cases heq
    · rename_i heq
      exfalso; apply hc; cases heq; rfl
    · rename_i heq
      cases heq; rfl

lemma cleanItems_mem {vs : List Val} {v : Val} (h : cleanItems vs = true)
    (hv : v ∈ vs) :
    cleanVal v = true ∧ (render v).contains ',' = false := by
  induction vs with
  | nil => cases hv
  | cons w rest ih =>
    rw [cleanItems_cons, Bool.and_eq_true, Bool.and_eq_true] at h
    rcases List.mem_cons.mp hv with h1 | h2
    · subst h1
      exact ⟨h.1.1, by simpa using h.1.2⟩
    · exact ih h.2 h2

lemma getlineSplit_no_comma {s : Str} (hne : s ≠ [])
    (h : ∀ c ∈ s, c ≠ ',') : getlineSplit s = [s] := by
  induction s with
  | nil => exact absurd rfl hne
  | cons c rest ih =>
    rw [getlineSplit_cons_ne rest (h c (List.mem_cons_self _ _))]
    rcases rest with _ | ⟨a, r⟩
    · rfl
    · rw [ih (List.cons_ne_nil _ _)
        (fun x hx => h x (List.mem_cons_of_mem _ hx))]

lemma getlineSplit_append_comma (a b : Str) (ha : ∀ c ∈ a, c ≠ ',') :
    getlineSplit (a ++ ',' :: b) = a :: getlineSplit b := by
  induction a with
  | nil => exact getlineSplit_comma_cons b
  | cons a0 a' ih =>
    rw [List.cons_append,
      getlineSplit_cons_ne _ (ha a0 (List.mem_cons_self _ _)),
      ih (fun x hx => ha x (List.mem_cons_of_mem _ hx))]

lemma not_comma_of_render {v : Val} (h : (render v).contains ',' = false)
    {c : Char} (hc : c ∈ render v) : c ≠ ',' := by
  intro hcc
  subst hcc
  exact not_mem_of_contains_eq_false h hc

lemma getlineSplit_space_renderItems :
    ∀ (rs : List Val) (w : Val), cleanItems (w :: rs) = true →
      getlineSplit (' ' :: renderItems (w :: rs))
        = (' ' :: render w) :: rs.map (fun u => ' ' :: render u) := by
  intro rs
  induction rs with
  | nil =>
    intro w h
    rw [renderItems_single]
    rcases hr : render w with _ | ⟨c, t⟩
    · rfl
    · rw [← hr]
      apply getlineSplit_no_comma
      · rw [hr]; exact List.cons_ne_nil _ _
      · intro x hx
        rcases List.mem_cons.mp hx with h1 | h2
        · subst h1; decide
        · exact not_comma_of_render
            (cleanItems_mem h (List.mem_cons_self _ _)).2 h2
  | cons u us ih =>
    intro w h
    rw [renderItems_cons]
    rw [show ' ' :: (render w ++ (", ".toList ++ renderItems (u :: us)))
        = (' ' :: render w) ++ (',' :: (' ' :: renderItems (u :: us)))
      from rfl]
    rw [getlineSplit_append_comma _ _ ?hcf]
    case hcf =>
      intro x hx
      rcases List.mem_cons.mp hx with h1 | h2
      · subst h1; decide
      · exact not_comma_of_render
          (cleanItems_mem h (List.mem_cons_self _ _)).2 h2
    rw [ih u ?hsub]
    case hsub =>
      rw [cleanItems_cons, Bool.and_eq_true, Bool.and_eq_true] at h
      exact h.2
    rfl

lemma getlineSplit_renderItems (v : Val) (rest : List Val)
    (h : cleanItems (v :: rest) = true)
    (hne : rest = [] → render v ≠ []) :
    getlineSplit (renderItems (v :: rest))
      = render v :: rest.map (fun u => ' ' :: render u) := by
  rcases rest with _ | ⟨w, rs⟩
  · rw [renderItems_single]
    rw [getlineSplit_no_comma (hne rfl)
      (fun x hx => not_comma_of_render
        (cleanItems_mem h (List.mem_cons_self _ _)).2 hx)]
    rfl
  · rw [renderItems_cons]
    rw [show render v ++ (", ".toList ++ renderItems (w :: rs))
        = render v ++ (',' :: (' ' :: renderItems (w :: rs))) from rfl]
    rw [getlineSplit_append_comma _ _
      (fun x hx => not_comma_of_render
        (cleanItems_mem h (List.mem_cons_self _ _)).2 hx)]
    rw [getlineSplit_space_renderItems rs w ?hsub]
    case hsub =>
      rw [cleanItems_cons, Bool.and_eq_true, Bool.and_eq_true] at h
      exact h.2
    rfl

lemma isSingletonEmptyStr_single {v : Val}
    (h : isSingletonEmptyStr [v] = false) : v ≠ Val.str [] := by
  intro hv
  subst hv
  cases h

/-- Parsing the rendering of a clean array recovers exactly its
elements. -/
lemma parseArray_render :
    ∀ v : Val, ∀ vs : List Val, v = Val.arr vs → cleanVal v = true →
      parseArray (render v) = vs := by
  refine val_ind ?_ ?_ ?_ ?_ ?_ ?_
  · exact fun s vs h => absurd h (fun hh => Val.noConfusion hh)
  · exact fun n vs h => absurd h (fun hh => Val.noConfusion hh)
  · exact fun s vs h => absurd h (fun hh => Val.noConfusion hh)
  · exact fun b vs h => absurd h (fun hh => Val.noConfusion hh)
  · exact fun s vs h => absurd h (fun hh => Val.noConfusion hh)
  · intro vs ih vs' heq hcl
    cases heq
    have helem : ∀ u ∈ vs, cleanVal u = true →
        (if isArray (trimQuotes (trim (render u))) then
          Val.arr (parseArray (trimQuotes (trim (render u))))
        else Val.str (trimQuotes (trim (render u)))) = u := by
      intro u hu hcu
      rw [render_trim_self hcu, render_trimQuotes_self hcu]
      cases u with
      | str s =>
        rw [cleanVal_str] at hcu
        rw [render_str, isArray_of_cleanScalar hcu]
        rw [if_neg (by simp)]
      | arr ws =>
        rw [isArray_render_arr, if_pos rfl]
        rw [ih (Val.arr ws) hu ws rfl hcu]
      | intg n => rw [cleanVal_intg] at hcu; cases hcu
      | dbl s => rw [cleanVal_dbl] at hcu; cases hcu
      | boolean b => rw [cleanVal_boolean] at hcu; cases hcu
      | date s => rw [cleanVal_date] at hcu; cases hcu
    rw [render_arr, parseArray_eq]
    have hinner : (('[' :: (renderItems vs ++ [']'])).drop 1).dropLast
        = renderItems vs := by
      show (renderItems vs ++ [']']).dropLast = renderItems vs
      exact List.dropLast_concat
    rw [hinner]
    rw [cleanVal_arr, Bool.and_eq_true] at hcl
    rcases vs with _ | ⟨v0, rest⟩
    · rw [renderItems_nil]
      rfl
    · have hcl1 := hcl.1
      rw [getlineSplit_renderItems v0 rest hcl1 ?hne0]
      case hne0 =>
        intro hrnil
        subst hrnil
        have hv0 : cleanVal v0 = true :=
          (cleanItems_mem hcl1 (List.mem_cons_self _ _)).1
        refine render_ne_nil hv0 ?_
        apply isSingletonEmptyStr_single
        simpa using hcl.2
      rw [List.map_cons, List.map_map]
      congr 1
      · exact helem v0 (List.mem_cons_self _ _)
          (cleanItems_mem hcl1 (List.mem_cons_self _ _)).1
      · have : ∀ u ∈ rest,
            ((fun item =>
              if isArray (trimQuotes (trim item)) then
                Val.arr (parseArray (trimQuotes (trim item)))
              else Val.str (trimQuotes (trim item))) ∘
             (fun u => ' ' :: render u)) u = u := by
          intro u hu
          show (if isArray (trimQuotes (trim (' ' :: render u))) then
              Val.arr (parseArray (trimQuotes (trim (' ' :: render u))))
            else Val.str (trimQuotes (trim (' ' :: render u)))) = u
          rw [trim_cons_space]
          have hcu : cleanVal u = true :=
            (cleanItems_mem hcl1 (List.mem_cons_of_mem _ hu)).1
          rw [render_trim_self hcu]
          have := helem u (List.mem_cons_of_mem _ hu) hcu
          rwa [render_trim_self hcu] at this
        rw [List.map_congr_left this, List.map_id']

/-! ## Parsing the serializer's own output lines -/

lemma noWsEnds_head {s : Str} {ch : Char} (h : noWsEnds s = true)
    (hh : s.head? = some ch) : isWs ch = false := by
  unfold noWsEnds at h
  rw [Bool.and_eq_true, hh] at h
  simpa using h.1

lemma noWsEnds_getLast {s : Str} {ch : Char} (h : noWsEnds s = true)
    (hg : s.getLast? = some ch) : isWs ch = false := by
  unfold noWsEnds at h
  rw [Bool.and_eq_true, hg] at h
  simpa using h.2

lemma noWsEnds_intro {s : Str}
    (h1 : ∀ ch, s.head? = some ch → isWs ch = false)
    (h2 : ∀ ch, s.getLast? = some ch → isWs ch = false) :
    noWsEnds s = true := by
  unfold noWsEnds
  rw [Bool.and_eq_true]
  constructor
  · cases hh : s.head? with
    | none => rfl
    | some ch =>
      show (!isWs ch) = true
      rw [h1 ch hh]
      rfl
  · cases hg : s.getLast? with
    | none => rfl
    | some ch =>
      show (!isWs ch) = true
      rw [h2 ch hg]
      rfl

lemma head?_append_left {a : Str} (b : Str) {ch : Char}
    (h : a.head? = some ch) : (a ++ b).head? = some ch := by
  cases a with
  | nil => cases h
  | cons x r =>
    rw [List.head?_cons] at h
    cases h
    rfl

lemma getLast?_append_right (a : Str) {b : Str} {ch : Char}
    (h : b.getLast? = some ch) : (a ++ b).getLast? = some ch := by
  rw [List.getLast?_append, h]
  rfl

/-- A comment line emitted by `save` parses back to exactly the comment it
was built from. -/
lemma parseLine_commentLine (st : PState) (c : Str)
    (hc : noWsEnds c = true) :
    parseLine (commentLine c) st
      = Except.ok { st with buf := st.buf ++ [c] } := by
  rcases c with _ | ⟨a, r⟩
  · have ht : trim (commentLine []) = [';'] := by decide
    rw [parseLine_comment st (by rw [ht]; rfl)]
    rw [ht]
    rfl
  · have ht : trim (commentLine (a :: r)) = ';' :: (' ' :: (a :: r)) := by
      apply trim_eq_self
      apply noWsEnds_intro
      · intro ch hh
        cases hh
        rfl
      · intro ch hg
        rw [show commentLine (a :: r) = ';' :: (' ' :: (a :: r)) from rfl,
          List.getLast?_cons_cons, List.getLast?_cons_cons] at hg
        exact noWsEnds_getLast hc hg
    rw [parseLine_comment st (by rw [ht]; rfl)]
    rw [ht,
      show List.drop 1 (';' :: (' ' :: (a :: r))) = ' ' :: (a :: r)
        from rfl,
      trim_cons_space, trim_eq_self hc]

/-- A header line emitted by `save` parses back to exactly the section it
was built from. -/
lemma parseLine_headerLine (st : PState) (sec : Str)
    (hs : cleanName sec = true) :
    parseLine (headerLine sec) st = Except.ok { st with
      comments := updA (fun o => o.getD [] ++ st.buf)
        (if alookup st.comments sec = none then st.comments ++ [(sec, [])]
         else st.comments) sec,
      cur := sec, buf := [] } := by
  have hnw : noWsEnds sec = true ∧ quotedForm sec = false := by
    unfold cleanName at hs
    rw [Bool.and_eq_true] at hs
    exact ⟨hs.1, by simpa using hs.2⟩
  have hlast : (headerLine sec).getLast? = some ']' := by
    rw [show headerLine sec = ('[' :: sec) ++ [']'] from rfl]
    exact List.getLast?_concat _
  have ht : trim (headerLine sec) = headerLine sec := by
    apply trim_eq_self
    apply noWsEnds_intro
    · intro ch hh
      cases hh
      rfl
    · intro ch hg
      rw [hlast] at hg
      cases hg
      rfl
  have hname : headerName (headerLine sec) = sec := by
    unfold headerName
    rw [ht]
    rw [show ((headerLine sec).drop 1).dropLast = (sec ++ [']']).dropLast
      from rfl]
    rw [List.dropLast_concat, trim_eq_self hnw.1, trimQuotes_eq_self hnw.2]
  rw [parseLine_header st (by rw [ht]; rfl) (by rw [ht]; exact hlast)]
  rw [hname]

lemma cleanKey_parts {k : Str} (h : cleanKey k = true) :
    k ≠ [] ∧ noWsEnds k = true ∧ quotedForm k = false ∧
    '=' ∉ k ∧ (∀ c, k.head? = some c → c ≠ ';' ∧ c ≠ '[') := by
  unfold cleanKey at h
  repeat rw [Bool.and_eq_true] at h
  obtain ⟨⟨⟨⟨⟨h1, h2⟩, h3⟩, h4⟩, h5⟩, h6⟩ := h
  refine ⟨?_, h2, by simpa using h3,
    not_mem_of_contains_eq_false (by simpa using h4), ?_⟩
  · intro hk
    rw [hk] at h1
    cases h1
  · intro c hc
    rw [hc] at h5 h6
    constructor
    · intro hcc
      rw [hcc] at h5
      simp at h5
    · intro hcc
      rw [hcc] at h6
      simp at h6

lemma render_nil_imp {v : Val} (h : cleanVal v = true)
    (hr : render v = []) : v = Val.str [] := by
  cases v with
  | str s => rw [render_str] at hr; rw [hr]
  | arr vs => rw [render_arr] at hr; cases hr
  | intg n => rw [cleanVal_intg] at h; cases h
  | dbl s => rw [cleanVal_dbl] at h; cases h
  | boolean b => rw [cleanVal_boolean] at h; cases h
  | date s => rw [cleanVal_date] at h; cases h

lemma takeWhile_key_space {k : Str} (hk : '=' ∉ k) (tail : Str) :
    ((k ++ [' ']) ++ ('=' :: tail)).takeWhile (· ≠ '=') = k ++ [' '] := by
  rw [List.takeWhile_append_of_pos]
  · rw [show ('=' :: tail).takeWhile (· ≠ '=') = [] from by
      rw [List.takeWhile_cons]
      simp]
    rw [List.append_nil]
  · intro x hx
    rcases List.mem_append.mp hx with h1 | h2
    · have : x ≠ '=' := fun hh => hk (hh ▸ h1)
      simpa using this
    · rcases List.mem_cons.mp h2 with h3 | h4
      · subst h3; decide
      · cases h4

lemma dropWhile_key_space {k : Str} (hk : '=' ∉ k) (tail : Str) :
    ((k ++ [' ']) ++ ('=' :: tail)).dropWhile (· ≠ '=') = '=' :: tail := by
  rw [List.dropWhile_append_of_pos]
  · rw [List.dropWhile_cons]
    simp
  · intro x hx
    rcases List.mem_append.mp hx with h1 | h2
    · have : x ≠ '=' := fun hh => hk (hh ▸ h1)
      simpa using this
    · rcases List.mem_cons.mp h2 with h3 | h4
      · subst h3; decide
      · cases h4

/-- A key/value line emitted by `save` parses back to exactly the
assignment it was built from. -/
lemma parseLine_kvLine (st : PState) (k : Str) (v : Val)
    (hk : cleanKey k = true) (hv : cleanVal v = true) :
    parseLine (kvLine k v) st = Except.ok
      { st with data := setKV st.data st.cur k v, buf := [] } := by
  obtain ⟨hk0, hknw, hkq, hkeq, hkhd⟩ := cleanKey_parts hk
  obtain ⟨a, ka, hka⟩ : ∃ a ka, k = a :: ka := by
    rcases k with _ | ⟨a, ka⟩
    · exact absurd rfl hk0
    · exact ⟨a, ka, rfl⟩
  have hhd : k.head? = some a := by rw [hka]; rfl
  have hvline : ∀ tail : Str, (k ++ tail).head? = some a :=
    fun tail => head?_append_left tail hhd
  have hane : a ≠ ';' ∧ a ≠ '[' := hkhd a hhd
  rcases hr : render v with _ | ⟨rc, rt⟩
  · -- rendered value is empty: v is the empty string value
    have hveq : v = Val.str [] := render_nil_imp hv hr
    have hline : kvLine k v = k ++ [' ', '=', ' '] := by
      unfold kvLine
      rw [hr, List.append_nil]
      rfl
    have ht : trim (kvLine k v) = k ++ [' ', '='] := by
      rw [hline]
      unfold trim
      rw [dropWhile_isWs_eq_self (fun ch hch => by
        rw [hvline [' ', '=', ' ']] at hch
        cases hch
        exact noWsEnds_head hknw hhd)]
      unfold dropWhileEnd
      rw [List.reverse_append]
      show ((' ' :: ('=' :: (' ' :: k.reverse))).dropWhile isWs).reverse
        = k ++ [' ', '=']
      rw [List.dropWhile_cons]
      rw [show isWs ' ' = true from rfl]
      simp only [if_true]
      rw [List.dropWhile_cons]
      rw [show isWs '=' = false from rfl]
      simp only [Bool.false_eq_true, if_false]
      rw [List.reverse_cons, List.reverse_cons, List.reverse_reverse,
        List.append_assoc]
      rfl
    have hsplit : k ++ [' ', '='] = (k ++ [' ']) ++ ('=' :: []) := by
      rw [List.append_assoc]
      rfl
    have hne : trim (kvLine k v) ≠ [] := by
      rw [ht]
      exact fun hh => hk0 (List.append_eq_nil.mp hh).1
    have hcs : (trim (kvLine k v)).head? ≠ some ';' := by
      rw [ht, hvline [' ', '=']]
      intro hh
      cases hh
      exact hane.1 rfl
    have hhdr : ¬((trim (kvLine k v)).head? = some '[' ∧
        (trim (kvLine k v)).getLast? = some ']') := by
      rw [ht, hvline [' ', '=']]
      rintro ⟨hh, -⟩
      cases hh
      exact hane.2 rfl
    have heqm : '=' ∈ trim (kvLine k v) := by
      rw [ht]
      exact List.mem_append_right _ (by decide)
    rw [parseLine_kv st hne hcs hhdr heqm]
    have hkey : keyOf (kvLine k v) = k := by
      unfold keyOf
      rw [ht, hsplit, takeWhile_key_space hkeq, trim_append_space hknw,
        trimQuotes_eq_self hkq]
    have hraw : rawVal (kvLine k v) = [] := by
      unfold rawVal
      rw [ht, hsplit, dropWhile_key_space hkeq]
      rfl
    have hval : valOf (kvLine k v) = v := by
      unfold valOf cutVal
      rw [hraw, hveq]
      rfl
    rw [hkey, hval]
  · -- rendered value is non-empty
    have hrnw : noWsEnds (render v) = true := render_noWsEnds hv
    have hline : kvLine k v = k ++ ([' ', '=', ' '] ++ render v) := by
      unfold kvLine
      rfl
    have hlast : (k ++ ([' ', '=', ' '] ++ render v)).getLast?
        = (render v).getLast? := by
      rw [List.getLast?_append, List.getLast?_append]
      rw [hr]
      rw [show (rc :: rt).getLast? = some ((rc :: rt).getLast
        (List.cons_ne_nil _ _)) from List.getLast?_eq_getLast _ _]
      rfl
    have ht : trim (kvLine k v) = k ++ ([' ', '=', ' '] ++ render v) := by
      rw [hline]
      apply trim_eq_self
      apply noWsEnds_intro
      · intro ch hch
        rw [hvline ([' ', '=', ' '] ++ render v)] at hch
        cases hch
        exact noWsEnds_head hknw hhd
      · intro ch hch
        rw [hlast] at hch
        exact noWsEnds_getLast hrnw hch
    have hsplit : k ++ ([' ', '=', ' '] ++ render v)
        = (k ++ [' ']) ++ ('=' :: (' ' :: render v)) := by
      rw [List.append_assoc]
      rfl
    have hne : trim (kvLine k v) ≠ [] := by
      rw [ht]
      exact fun hh => hk0 (List.append_eq_nil.mp hh).1
    have hcs : (trim (kvLine k v)).head? ≠ some ';' := by
      rw [ht, hvline]
      intro hh
      cases hh
      exact hane.1 rfl
    have hhdr : ¬((trim (kvLine k v)).head? = some '[' ∧
        (trim (kvLine k v)).getLast? = some ']') := by
      rw [ht, hvline]
      rintro ⟨hh, -⟩
      cases hh
      exact hane.2 rfl
    have heqm : '=' ∈ trim (kvLine k v) := by
      rw [ht]
      exact List.mem_append_right _
        (List.mem_cons_of_mem _ (List.mem_cons_self _ _))
    rw [parseLine_kv st hne hcs hhdr heqm]
    have hkey : keyOf (kvLine k v) = k := by
      unfold keyOf
      rw [ht, hsplit, takeWhile_key_space hkeq, trim_append_space hknw,
        trimQuotes_eq_self hkq]
    have hraw : rawVal (kvLine k v) = render v := by
      unfold rawVal
      rw [ht, hsplit, dropWhile_key_space hkeq]
      show trim (' ' :: render v) = render v
      rw [trim_cons_space]
      exact render_trim_self hv
    have hval : valOf (kvLine k v) = v := by
      unfold valOf cutVal
      rw [hraw]
      rw [if_neg (fun hmem => render_no_semi v hv hmem)]
      cases v with
      | str s =>
        rw [cleanVal_str] at hv
        rw [render_str, isArray_of_cleanScalar hv]
        rw [if_neg (by simp)]
        rw [trimQuotes_eq_self (by
          rcases s with _ | ⟨b, sb⟩
          · exact quotedForm_nil
          · refine quotedForm_eq_false_of_head List.head?_cons ?_
            intro hb
            have := cleanScalar_not_forbidden hv (List.mem_cons_self b sb)
            rw [hb] at this
            cases this)]
      | arr ws =>
        rw [isArray_render_arr, if_pos rfl]
        rw [parseArray_render (Val.arr ws) ws rfl hv]
      | intg n => rw [cleanVal_intg] at hv; cases hv
      | dbl s => rw [cleanVal_dbl] at hv; cases hv
      | boolean b => rw [cleanVal_boolean] at hv; cases hv
      | date s => rw [cleanVal_date] at hv; cases hv
    rw [hkey, hval]


/-! ## Running the parser over a whole serialized document -/

lemma updA_cons_self {β : Type} (f : Option β → β) (s : Str) (b : β)
    (rest : List (Str × β)) :
    updA f ((s, b) :: rest) s = (s, f (some b)) :: rest := by
  simp [updA]

lemma parseLines_cons_ok {l : Str} {ls : List Str} {st st' : PState}
    (hp : parseLine l st = Except.ok st') :
    parseLines (l :: ls) st = parseLines ls st' := by
  rw [parseLines, hp]

lemma parseLines_commentLines :
    ∀ (cs : List Str) (st : PState), (∀ c ∈ cs, noWsEnds c = true) →
      parseLines (cs.map commentLine) st
        = ({ st with buf := st.buf ++ cs }, none) := by
  intro cs
  induction cs with
  | nil =>
    intro st h
    rw [List.map_nil, parseLines, List.append_nil]
  | cons c cs' ih =>
    intro st h
    rw [List.map_cons,
      parseLines_cons_ok (parseLine_commentLine st c
        (h c (List.mem_cons_self _ _))),
      ih _ (fun x hx => h x (List.mem_cons_of_mem _ hx)),
      List.append_assoc]
    rfl

lemma parseLines_kvs :
    ∀ (ks : SecMap) (st : PState) (base : DataMap) (acc : SecMap),
      st.buf = [] →
      st.data = base ++ [(st.cur, acc)] →
      alookup base st.cur = none →
      (∀ p ∈ ks, cleanKey p.1 = true ∧ cleanVal p.2 = true) →
      (ks.map Prod.fst).Nodup →
      (∀ p ∈ ks, alookup acc p.1 = none) →
      parseLines (ks.map (fun p => kvLine p.1 p.2)) st
        = ({ st with data := base ++ [(st.cur, acc ++ ks)] }, none) := by
  intro ks
  induction ks with
  | nil =>
    intro st base acc hbuf hdata hbase hclean hnodup hfresh
    rw [List.map_nil, parseLines, List.append_nil, ← hdata]
  | cons p ks' ih =>
    intro st base acc hbuf hdata hbase hclean hnodup hfresh
    obtain ⟨k, v⟩ := p
    have hsetkv : setKV st.data st.cur k v
        = base ++ [(st.cur, acc ++ [(k, v)])] := by
      rw [hdata]
      unfold setKV
      rw [updA_append_of_none _ _ _ _ hbase, updA_cons_self]
      have hfk : alookup ((some acc).getD ([] : SecMap)) k = none :=
        hfresh (k, v) (List.mem_cons_self _ _)
      rw [updA_of_none_eq_append _ _ _ hfk]
      rfl
    rw [List.map_cons,
      parseLines_cons_ok (parseLine_kvLine st k v
        (hclean (k, v) (List.mem_cons_self _ _)).1
        (hclean (k, v) (List.mem_cons_self _ _)).2)]
    rw [List.map_cons, List.nodup_cons] at hnodup
    have hfresh2 : ∀ q ∈ ks', alookup (acc ++ [(k, v)]) q.1 = none := by
      intro q hq
      rw [alookup_append, hfresh q (List.mem_cons_of_mem _ hq)]
      have hne : q.1 ≠ k := by
        intro hh
        have hmm : q.1 ∈ List.map Prod.fst ks' :=
          List.mem_map_of_mem Prod.fst hq
        rw [hh] at hmm
        exact hnodup.1 hmm
      show (if k = q.1 then some v else alookup [] q.1) = none
      rw [if_neg (fun hh => hne hh.symm)]
      rfl
    refine Eq.trans (ih _ base (acc ++ [(k, v)]) rfl hsetkv hbase
      (fun q hq => hclean q (List.mem_cons_of_mem _ hq))
      hnodup.2 hfresh2) ?_
    rw [List.append_assoc, hbuf]
    rfl

lemma parseLines_section (cm : CMap) (sec : Str) (ks : SecMap)
    (st : PState)
    (hbuf : st.buf = [])
    (hname : cleanName sec = true)
    (hksne : ks ≠ [])
    (hknodup : (ks.map Prod.fst).Nodup)
    (hkclean : ∀ p ∈ ks, cleanKey p.1 = true ∧ cleanVal p.2 = true)
    (hcs : ∀ c ∈ (alookup cm sec).getD [], noWsEnds c = true)
    (hfresh : alookup st.data sec = none)
    (hcfresh : alookup st.comments sec = none) :
    parseLines (sectionLines cm (sec, ks)) st
      = (⟨st.data ++ [(sec, ks)],
          st.comments ++ [(sec, (alookup cm sec).getD [])],
          sec, []⟩, none) := by
  unfold sectionLines
  rw [parseLines_append, parseLines_commentLines _ st hcs]
  show parseLines (headerLine sec :: ks.map (fun p => kvLine p.1 p.2))
    (PState.mk st.data st.comments st.cur (st.buf ++ (alookup cm sec).getD []))
    = _
  rw [parseLines_cons_ok (parseLine_headerLine
    (PState.mk st.data st.comments st.cur
      (st.buf ++ (alookup cm sec).getD [])) sec hname)]
  have hcomments : updA
      (fun o => o.getD [] ++ (st.buf ++ (alookup cm sec).getD []))
      (if alookup st.comments sec = none then st.comments ++ [(sec, [])]
       else st.comments) sec
      = st.comments ++ [(sec, (alookup cm sec).getD [])] := by
    rw [if_pos hcfresh, updA_append_of_none _ _ _ _ hcfresh, updA_cons_self]
    rw [hbuf]
    rfl
  rcases ks with _ | ⟨⟨k0, v0⟩, ks'⟩
  · exact absurd rfl hksne
  · rw [List.map_cons,
      parseLines_cons_ok (parseLine_kvLine _ k0 v0
        (hkclean (k0, v0) (List.mem_cons_self _ _)).1
        (hkclean (k0, v0) (List.mem_cons_self _ _)).2)]
    have hsetkv : setKV st.data sec k0 v0
        = st.data ++ [(sec, [(k0, v0)])] := by
      unfold setKV
      rw [updA_of_none_eq_append _ _ _ hfresh]
      rfl
    rw [List.map_cons, List.nodup_cons] at hknodup
    have hkfresh2 : ∀ q ∈ ks', alookup [(k0, v0)] q.1 = none := by
      intro q hq
      have hne : q.1 ≠ k0 := by
        intro hh
        have hmm : q.1 ∈ List.map Prod.fst ks' :=
          List.mem_map_of_mem Prod.fst hq
        rw [hh] at hmm
        exact hknodup.1 hmm
      show (if k0 = q.1 then some v0 else alookup [] q.1) = none
      rw [if_neg (fun hh => hne hh.symm)]
      rfl
    refine Eq.trans (parseLines_kvs ks' _ st.data [(k0, v0)] rfl hsetkv
      hfresh
      (fun q hq => hkclean q (List.mem_cons_of_mem _ hq))
      hknodup.2 hkfresh2) ?_
    rw [hcomments]
    rfl

lemma serializeLines_nil (cm : CMap) : serializeLines [] cm = [] := rfl

lemma serializeLines_cons (cm : CMap) (sec : Str × SecMap) (d : DataMap) :
    serializeLines (sec :: d) cm
      = sectionLines cm sec ++ serializeLines d cm := by
  unfold serializeLines
  rw [List.map_cons, List.flatten_cons]

lemma parseLines_serialize :
    ∀ (d : DataMap) (cm : CMap) (st : PState),
      st.buf = [] →
      (d.map Prod.fst).Nodup →
      (∀ sec ∈ d, cleanName sec.1 = true ∧ sec.2 ≠ [] ∧
        (sec.2.map Prod.fst).Nodup ∧
        ∀ p ∈ sec.2, cleanKey p.1 = true ∧ cleanVal p.2 = true) →
      (∀ sec ∈ d, ∀ c ∈ (alookup cm sec.1).getD [], noWsEnds c = true) →
      (∀ sec ∈ d, alookup st.data sec.1 = none) →
      (∀ sec ∈ d, alookup st.comments sec.1 = none) →
      ∃ cur', parseLines (serializeLines d cm) st
        = (⟨st.data ++ d,
            st.comments
              ++ d.map (fun sec => (sec.1, (alookup cm sec.1).getD [])),
            cur', []⟩, none) := by
  intro d
  induction d with
  | nil =>
    intro cm st hbuf _ _ _ _ _
    refine ⟨st.cur, ?_⟩
    rw [serializeLines_nil, parseLines, List.map_nil,
      List.append_nil, List.append_nil]
    obtain ⟨d0, c0, cu0, b0⟩ := st
    cases hbuf
    rfl
  | cons sec0 d' ih =>
    intro cm st hbuf hnodup hsec hcm hfresh hcfresh
    obtain ⟨s0, ks0⟩ := sec0
    obtain ⟨hname0, hks0ne, hks0nodup, hks0clean⟩ :=
      hsec (s0, ks0) (List.mem_cons_self _ _)
    rw [serializeLines_cons, parseLines_append,
      parseLines_section cm s0 ks0 st hbuf hname0 hks0ne hks0nodup
        hks0clean (hcm (s0, ks0) (List.mem_cons_self _ _))
        (hfresh (s0, ks0) (List.mem_cons_self _ _))
        (hcfresh (s0, ks0) (List.mem_cons_self _ _))]
    rw [List.map_cons, List.nodup_cons] at hnodup
    have hstep := ih cm
      (PState.mk (st.data ++ [(s0, ks0)])
        (st.comments ++ [(s0, (alookup cm s0).getD [])]) s0 [])
      rfl hnodup.2
      (fun sec hsec' => hsec sec (List.mem_cons_of_mem _ hsec'))
      (fun sec hsec' => hcm sec (List.mem_cons_of_mem _ hsec'))
      (fun sec hsec' => by
        show alookup (st.data ++ [(s0, ks0)]) sec.1 = none
        rw [alookup_append, hfresh sec (List.mem_cons_of_mem _ hsec')]
        have hne : sec.1 ≠ s0 := by
          intro hh
          have hmm : sec.1 ∈ List.map Prod.fst d' :=
            List.mem_map_of_mem Prod.fst hsec'
          rw [hh] at hmm
          exact hnodup.1 hmm
        show (if s0 = sec.1 then some ks0 else alookup [] sec.1) = none
        rw [if_neg (fun hh => hne hh.symm)]
        rfl)
      (fun sec hsec' => by
        show alookup (st.comments ++ [(s0, (alookup cm s0).getD [])])
          sec.1 = none
        rw [alookup_append, hcfresh sec (List.mem_cons_of_mem _ hsec')]
        have hne : sec.1 ≠ s0 := by
          intro hh
          have hmm : sec.1 ∈ List.map Prod.fst d' :=
            List.mem_map_of_mem Prod.fst hsec'
          rw [hh] at hmm
          exact hnodup.1 hmm
        show (if s0 = sec.1 then some ((alookup cm s0).getD [])
          else alookup [] sec.1) = none
        rw [if_neg (fun hh => hne hh.symm)]
        rfl)
    obtain ⟨cur', hrun⟩ := hstep
    refine ⟨cur', ?_⟩
    show parseLines (serializeLines d' cm)
      (PState.mk (st.data ++ [(s0, ks0)])
        (st.comments ++ [(s0, (alookup cm s0).getD [])]) s0 []) = _
    rw [hrun, List.append_assoc, List.append_assoc]
    rfl

/-! ## The fallible serializer agrees with the pure rendering on clean
documents -/

lemma saveValue_eq_render :
    ∀ v : Val, cleanVal v = true → saveValue v = Except.ok (render v) := by
  have hlist : ∀ vs : List Val,
      (∀ v ∈ vs, cleanVal v = true → saveValue v = Except.ok (render v)) →
      cleanItems vs = true → saveItems vs = Except.ok (renderItems vs) := by
    intro vs
    induction vs with
    | nil =>
      intro _ _
      rw [saveItems, renderItems_nil]
    | cons v rest ih =>
      intro hall hcl
      rw [cleanItems_cons, Bool.and_eq_true, Bool.and_eq_true] at hcl
      rcases rest with _ | ⟨w, rs⟩
      · rw [saveItems, renderItems_single]
        exact hall v (List.mem_cons_self _ _) hcl.1.1
      · rw [saveItems, renderItems_cons,
          hall v (List.mem_cons_self _ _) hcl.1.1,
          ih (fun u hu => hall u (List.mem_cons_of_mem _ hu)) hcl.2]
        exact fun h => absurd h (List.cons_ne_nil _ _)
  refine val_ind ?_ ?_ ?_ ?_ ?_ ?_
  · intro s _
    rw [saveValue, render_str]
  · intro n h; rw [cleanVal_intg] at h; cases h
  · intro s h; rw [cleanVal_dbl] at h; cases h
  · intro b h; rw [cleanVal_boolean] at h; cases h
  · intro s h; rw [cleanVal_date] at h; cases h
  · intro vs ih h
    rw [cleanVal_arr, Bool.and_eq_true] at h
    rw [saveValue, hlist vs ih h.1, render_arr]

lemma saveKVs_eq (ks : SecMap)
    (h : ∀ p ∈ ks, cleanKey p.1 = true ∧ cleanVal p.2 = true) :
    saveKVs ks = Except.ok (ks.map (fun p => kvLine p.1 p.2)) := by
  induction ks with
  | nil => rw [saveKVs, List.map_nil]
  | cons p rest ih =>
    obtain ⟨k, v⟩ := p
    rw [saveKVs,
      saveValue_eq_render v (h (k, v) (List.mem_cons_self _ _)).2,
      ih (fun q hq => h q (List.mem_cons_of_mem _ hq)), List.map_cons]
    rfl

lemma saveSection_eq (cm : CMap) (sec : Str × SecMap)
    (h : ∀ p ∈ sec.2, cleanKey p.1 = true ∧ cleanVal p.2 = true) :
    saveSection cm sec = Except.ok (sectionLines cm sec) := by
  unfold saveSection sectionLines
  rw [saveKVs_eq sec.2 h]

lemma saveLines_eq :
    ∀ (d : DataMap) (cm : CMap),
      (∀ sec ∈ d, ∀ p ∈ sec.2, cleanKey p.1 = true ∧ cleanVal p.2 = true) →
      saveLines d cm = Except.ok (serializeLines d cm) := by
  intro d
  induction d with
  | nil =>
    intro cm _
    rw [saveLines, serializeLines_nil]
  | cons sec rest ih =>
    intro cm h
    rw [saveLines,
      saveSection_eq cm sec (h sec (List.mem_cons_self _ _)),
      ih cm (fun q hq => h q (List.mem_cons_of_mem _ hq)),
      serializeLines_cons]

lemma alookup_map_keyfun (g : Str → List Str) :
    ∀ (d : DataMap) (s : Str), s ∈ d.map Prod.fst →
      alookup (d.map (fun q => (q.1, g q.1))) s = some (g s) := by
  intro d
  induction d with
  | nil => intro s hs; cases hs
  | cons q0 rest ih =>
    intro s hs
    rw [List.map_cons]
    show (if q0.1 = s then some (g q0.1) else
      alookup (rest.map (fun q => (q.1, g q.1))) s) = some (g s)
    by_cases hq : q0.1 = s
    · rw [if_pos hq, hq]
    · rw [if_neg hq]
      rw [List.map_cons] at hs
      rcases List.mem_cons.mp hs with h1 | h2
      · exact absurd h1.symm hq
      · exact ih s h2

/-! ## Claim C1 — the serialize/parse round trip -/

/-- Claim C1, amended: for every document and comments map satisfying the
cleanliness conditions of `cleanDoc` — distinct section names and keys that
`trim`/`trimQuotes` leave unchanged, keys nonempty without `=` and not
starting with `;` or `[`, nonempty sections, values built only of the
String/Array variants with payloads free of `,`/`;`/`[`/`]`/`"` and of
surrounding whitespace, no array equal to `[""]`, nested arrays rendering
comma-free, comments without surrounding whitespace — `save` succeeds and
parsing its output reproduces exactly the same data map, with the same
comment list attached to every section. -/
theorem clean_roundtrip (d : DataMap) (cm : CMap) (h : cleanDoc d cm) :
    saveLines d cm = Except.ok (serializeLines d cm) ∧
    (parse (serializeLines d cm)).2 = none ∧
    (parse (serializeLines d cm)).1.data = d ∧
    ∀ sec ∈ d, alookup (parse (serializeLines d cm)).1.comments sec.1
      = some ((alookup cm sec.1).getD []) := by
  obtain ⟨hnodup, hsec, hcm⟩ := h
  obtain ⟨cur', hrun⟩ := parseLines_serialize d cm initState rfl hnodup hsec
    hcm (fun _ _ => rfl) (fun _ _ => rfl)
  refine ⟨saveLines_eq d cm (fun sec hs => (hsec sec hs).2.2.2),
    ?_, ?_, ?_⟩
  · unfold parse
    rw [hrun]
  · unfold parse
    rw [hrun]
    show [] ++ d = d
    rw [List.nil_append]
  · intro sec hs
    unfold parse
    rw [hrun]
    show alookup ([] ++ d.map (fun q => (q.1, (alookup cm q.1).getD [])))
      sec.1 = some ((alookup cm sec.1).getD [])
    rw [List.nil_append]
    exact alookup_map_keyfun (fun s => (alookup cm s).getD []) d sec.1
      (List.mem_map_of_mem Prod.fst hs)

/-- Claim C1, witness: the amended round trip at a concrete document with
one section `s`, one key `k` with scalar value `v`, and one comment. -/
theorem clean_roundtrip_witness :
    saveLines [(['s'], [(['k'], Val.str ['v'])])] [(['s'], [['c']])]
      = Except.ok (serializeLines [(['s'], [(['k'], Val.str ['v'])])]
          [(['s'], [['c']])]) ∧
    (parse (serializeLines [(['s'], [(['k'], Val.str ['v'])])]
      [(['s'], [['c']])])).2 = none ∧
    (parse (serializeLines [(['s'], [(['k'], Val.str ['v'])])]
      [(['s'], [['c']])])).1.data = [(['s'], [(['k'], Val.str ['v'])])] ∧
    ∀ sec ∈ [(['s'], [(['k'], Val.str ['v'])])],
      alookup (parse (serializeLines [(['s'], [(['k'], Val.str ['v'])])]
        [(['s'], [['c']])])).1.comments sec.1
      = some ((alookup [(['s'], [['c']])] sec.1).getD []) :=
  clean_roundtrip [(['s'], [(['k'], Val.str ['v'])])] [(['s'], [['c']])]
    (by
      refine ⟨by decide, ?_, ?_⟩
      · intro sec hsec
        rw [List.mem_singleton] at hsec
        subst hsec
        refine ⟨by decide, List.cons_ne_nil _ _, by decide, ?_⟩
        intro p hp
        rw [List.mem_singleton] at hp
        subst hp
        exact ⟨by decide, by rw [cleanVal_str]; decide⟩
      · intro sec hsec c hc
        rw [List.mem_singleton] at hsec
        subst hsec
        have hcc : c ∈ ([['c']] : List Str) := hc
        rw [List.mem_singleton] at hcc
        subst hcc
        decide)

/-- Claim C1, counterexample: the claim as stated fails.  The input
`[" s "]` / `k = v` parses to a document whose only stored scalar value is
the clean string `v`, yet its section is named `" s "` (spaces kept by the
one-level quote stripping); serializing emits the header `[ s ]`, which
re-parses to the section named `s` — the reparsed document has a different
set of sections. -/
theorem roundtrip_counterexample :
    parse (("[\" s \"]".toList) :: ["k = v".toList])
        = (⟨[([' ', 's', ' '], [(['k'], Val.str ['v'])])],
            [([' ', 's', ' '], [])], [' ', 's', ' '], []⟩, none) ∧
    cleanScalar ['v'] = true ∧
    serializeLines [([' ', 's', ' '], [(['k'], Val.str ['v'])])]
        [([' ', 's', ' '], [])] = ["[ s ]".toList, "k = v".toList] ∧
    getSections (parse ["[ s ]".toList, "k = v".toList]).1.data
      = [['s']] ∧
    [['s']] ≠ getSections [([' ', 's', ' '], [(['k'], Val.str ['v'])])] := by
  refine ⟨rfl, by decide, ?_, rfl, by decide⟩
  rw [serializeLines_cons, serializeLines_nil]
  unfold sectionLines kvLine headerLine
  simp only [List.map_cons, List.map_nil, render_str]
  decide

/-! ## Claim C10 — parsing is not atomic on error -/

/-- Claim C10: when the parse aborts with an error at some line, the whole
state accumulated by the preceding lines — sections, key assignments,
comments — is exactly what the run returns: nothing is rolled back, and
the lines after the failing one are never processed. -/
theorem parse_not_atomic_on_error (pre : List Str) (bad : Str)
    (post : List Str) (st1 : PState) (e : PErr)
    (h1 : parseLines pre initState = (st1, none))
    (h2 : parseLine bad st1 = Except.error e) :
    parse (pre ++ bad :: post) = (st1, some e) := by
  unfold parse
  rw [parseLines_append, h1]
  show parseLines (bad :: post) st1 = (st1, some e)
  rw [parseLines, h2]

/-- Claim C10, witness: parsing `[s]`, `k = v`, then the malformed line
`oops` (no `=`) aborts with the malformed-line error while the section
`s` and its key `k` parsed before the failure remain in the state; the
line after the failure is never processed. -/
theorem parse_not_atomic_on_error_witness :
    parse (["[s]".toList, "k = v".toList] ++ ("oops".toList) ::
        ["x = y".toList])
      = (⟨[(['s'], [(['k'], Val.str ['v'])])], [(['s'], [])], ['s'], []⟩,
         some PErr.malformedLine) :=
  parse_not_atomic_on_error ["[s]".toList, "k = v".toList]
    ("oops".toList) ["x = y".toList]
    ⟨[(['s'], [(['k'], Val.str ['v'])])], [(['s'], [])], ['s'], []⟩
    PErr.malformedLine rfl rfl

end SConf
